import Mathlib

/-!
Verification of the feedback segmentation and HTML rendering pipeline of
the VociusAI results page (vocius-app/components/hero-section.tsx).

The pipeline is shallowly embedded over List Char / String:
the JavaScript string functions used by the source (replaceAll, regex
replace with the concrete patterns of the file, split, trim) are modelled
by executable Lean functions, and the JSON payload handling of pickRfds is
modelled over an inductive JSON value type, with JavaScript exceptions
(calling trim on a non-string) surfaced through Except.
-/

/-- Whitespace class of JavaScript: the characters matched by the regex
class backslash-s of a non-unicode regex and trimmed by String.prototype.trim. -/
def isJsWS (c : Char) : Bool :=
  c.toNat = 32 || c.toNat = 9 || c.toNat = 10 || c.toNat = 11 || c.toNat = 12 ||
  c.toNat = 13 || c.toNat = 0xa0 || c.toNat = 0x1680 ||
  (0x2000 ≤ c.toNat && c.toNat ≤ 0x200a) || c.toNat = 0x2028 || c.toNat = 0x2029 ||
  c.toNat = 0x202f || c.toNat = 0x205f || c.toNat = 0x3000 || c.toNat = 0xfeff

/-- Digit class of a JavaScript regex. -/
def isDigitJs (c : Char) : Bool :=
  48 ≤ c.toNat && c.toNat ≤ 57

/-- ASCII lower-casing, the canonicalisation relevant to the
case-insensitive regexes of the source (all their literals are ASCII). -/
def lowerA (c : Char) : Char :=
  if 65 ≤ c.toNat && c.toNat ≤ 90 then Char.ofNat (c.toNat + 32) else c

/-- JavaScript String.prototype.replaceAll for a single-character search
string: one left-to-right pass, replacements are not rescanned. -/
def replAll (c : Char) (r : List Char) : List Char → List Char
  | [] => []
  | x :: xs => (if x = c then r else [x]) ++ replAll c r xs

/-- Source function esc (hero-section.tsx line 309): escape the three
HTML-special characters, amp first, then lt, then gt. -/
def escL (l : List Char) : List Char :=
  replAll '>' "&gt;".data (replAll '<' "&lt;".data (replAll '&' "&amp;".data l))

/-- esc on strings, as in the source. -/
def esc (s : String) : String :=
  ⟨escL s.data⟩

/-- Per-character description of esc: the three specials map to their
entities and every other character is untouched. -/
def escChar (c : Char) : List Char :=
  if c = '&' then "&amp;".data
  else if c = '<' then "&lt;".data
  else if c = '>' then "&gt;".data
  else [c]

/-- A list of characters is escape-clean when it holds no raw angle
bracket and every ampersand starts one of the entities amp, lt, gt. -/
def escClean : List Char → Bool
  | [] => true
  | c :: xs =>
    if c = '<' || c = '>' then false
    else if c = '&' then
      if xs.take 4 = "amp;".data then escClean (xs.drop 4)
      else if xs.take 3 = "lt;".data then escClean (xs.drop 3)
      else if xs.take 3 = "gt;".data then escClean (xs.drop 3)
      else false
    else escClean xs
termination_by l => l.length
decreasing_by
  all_goals simp [List.length_drop]
  all_goals omega

/-- The characters that can follow the leading ampersand inside one of the
three entities; a cut placed before any other character cannot split an
entity. -/
def escTailChar (c : Char) : Bool :=
  c = 'a' || c = 'm' || c = 'p' || c = 'l' || c = 't' || c = 'g' || c = ';'

/-- Step 1 of normalize (line 315): remove every carriage return. -/
def removeCR (l : List Char) : List Char :=
  replAll '\r' [] l

/-- Step 2 of normalize (line 316): delete the Markdown bold marker, a
global regex replace of two adjacent asterisks, leftmost and
non-overlapping. -/
def stripBold : List Char → List Char
  | [] => []
  | [c] => [c]
  | c :: d :: xs =>
    if c = '*' && d = '*' then stripBold xs
    else c :: stripBold (d :: xs)

/-- Step 3 of normalize (line 317): delete runs of spaces and tabs that
stand immediately before a newline. -/
def stripWSBeforeNL : List Char → List Char
  | [] => []
  | c :: xs =>
    let r := stripWSBeforeNL xs
    if (c = ' ' || c = '\t') && r.head? = some '\n' then r else c :: r

/-- Step 4 of normalize (line 318) and the same replace inside
toVerbalHTML: collapse every run of three or more newlines to exactly
two. -/
def collapseNL : List Char → List Char
  | [] => []
  | c :: xs =>
    let r := collapseNL xs
    if c = '\n' && r.head? = some '\n' && r.tail.head? = some '\n' then r
    else c :: r

/-- JavaScript String.prototype.trim over the list of characters. -/
def trimL (l : List Char) : List Char :=
  ((l.dropWhile isJsWS).reverse.dropWhile isJsWS).reverse

/-- Source function normalize (hero-section.tsx lines 314 to 320) over a
character list: the four replaces followed by trim. -/
def normalizeL (l : List Char) : List Char :=
  trimL (collapseNL (stripWSBeforeNL (stripBold (removeCR l))))

/-- Source function normalize on strings (the bare name normalize is
taken by Mathlib). -/
def normalizeText (s : String) : String :=
  ⟨normalizeL s.data⟩

/-- Detector for two adjacent asterisks. -/
def hasBold : List Char → Bool
  | c :: d :: xs => (c = '*' && d = '*') || hasBold (d :: xs)
  | _ => false

/-- Detector for a space or tab standing immediately before a newline. -/
def hasWSNL : List Char → Bool
  | c :: d :: xs => ((c = ' ' || c = '\t') && d = '\n') || hasWSNL (d :: xs)
  | _ => false

/-- Detector for three adjacent newlines. -/
def hasNNN : List Char → Bool
  | c :: d :: e :: xs => (c = '\n' && d = '\n' && e = '\n') || hasNNN (d :: e :: xs)
  | _ => false

/-- Worker of the whitespace-run collapse; with the flag set the head of
the remaining run is still being skipped. -/
def collapseWSAux : Bool → List Char → List Char
  | _, [] => []
  | skip, c :: xs =>
    if skip && isJsWS c then collapseWSAux true xs
    else
      match xs with
      | [] => [c]
      | d :: _ =>
        if isJsWS c && isJsWS d then ' ' :: collapseWSAux true xs
        else c :: collapseWSAux false xs

/-- The whitespace-run collapse of flushPara (line 401): a global regex
replace of every run of at least two whitespace characters by one
space; a single whitespace character is kept as it is. -/
def collapseWS (l : List Char) : List Char :=
  collapseWSAux false l

/-- JavaScript String.prototype.split with a single-character separator:
the list of (possibly empty) pieces between separator occurrences. -/
def splitOnChar (sep : Char) : List Char → List (List Char)
  | [] => [[]]
  | c :: xs =>
    match splitOnChar sep xs with
    | [] => [[c]]
    | h :: t => if c = sep then [] :: h :: t else (c :: h) :: t

/-- Worker of the blank-line split; with the flag set the newline run
already split on is still being consumed. -/
def splitBlankAux : Bool → List Char → List (List Char)
  | _, [] => [[]]
  | skip, c :: xs =>
    if skip && c = '\n' then splitBlankAux true xs
    else if c = '\n' && xs.head? = some '\n' then [] :: splitBlankAux true xs
    else
      match splitBlankAux false xs with
      | [] => [[c]]
      | h :: t => (c :: h) :: t

/-- JavaScript split on the regex of at least two newlines (toVerbalHTML
line 436): pieces between maximal runs of two or more newlines. -/
def splitBlank (l : List Char) : List (List Char) :=
  splitBlankAux false l

/-- Case-insensitive match of an ASCII lowercase literal at the head of
the text; returns the remainder after the literal. -/
def matchLit : List Char → List Char → Option (List Char)
  | [], l => some l
  | _ :: _, [] => none
  | p :: ps, d :: ds => if lowerA d = p then matchLit ps ds else none

/-- Match of the regex VERBAL ANCHOR (line 304) at the head of the text:
verbal, optional whitespace, rfd, optional whitespace, optional colon.
Every quantifier here is deterministic because the character after each
whitespace run is never itself whitespace. -/
def verbalAt (l : List Char) : Option (List Char) :=
  match matchLit "verbal".data l with
  | none => none
  | some r =>
    match matchLit "rfd".data (r.dropWhile isJsWS) with
    | none => none
    | some r2 =>
      match r2.dropWhile isJsWS with
      | ':' :: rest => some rest
      | r3 => some r3

/-- The optional group of the WRITTEN ANCHOR regex (lines 305 to 306):
and speech-by-speech flow analysis, with flexible separators. -/
def writtenTail (l : List Char) : Option (List Char) :=
  match matchLit "and".data (l.dropWhile isJsWS) with
  | none => none
  | some r1 =>
    match matchLit "speech".data (r1.dropWhile isJsWS) with
    | none => none
    | some r2 =>
      match matchLit "by".data (r2.dropWhile (fun c => isJsWS c || c = '-')) with
      | none => none
      | some r3 =>
        match matchLit "speech".data (r3.dropWhile (fun c => isJsWS c || c = '-')) with
        | none => none
        | some r4 =>
          match matchLit "flow".data (r4.dropWhile isJsWS) with
          | none => none
          | some r5 => matchLit "analysis".data (r5.dropWhile isJsWS)

/-- Match of the regex WRITTEN ANCHOR (lines 305 to 306) at the head of
the text: written, rfd, an optional speech-by-speech tail, optional
whitespace, optional colon. -/
def writtenAt (l : List Char) : Option (List Char) :=
  match matchLit "written".data l with
  | none => none
  | some r =>
    match matchLit "rfd".data (r.dropWhile isJsWS) with
    | none => none
    | some r2 =>
      let r3 := match writtenTail r2 with
        | some t => t
        | none => r2
      match r3.dropWhile isJsWS with
      | ':' :: rest => some rest
      | r4 => some r4

/-- JavaScript String.prototype.search or first regex match: try the
matcher at index 0, 1, ... and return the text before the first match
together with the remainder after it. -/
def jsSearchFirst (m : List Char → Option (List Char)) : List Char → Option (List Char × List Char)
  | [] =>
    match m [] with
    | some r => some ([], r)
    | none => none
  | c :: xs =>
    match m (c :: xs) with
    | some r => some ([], r)
    | none =>
      match jsSearchFirst m xs with
      | some (pre, rest) => some (c :: pre, rest)
      | none => none

/-- JavaScript String.prototype.replace with a non-global regex and the
empty replacement: drop the first match, keep everything else. -/
def replaceFirst (m : List Char → Option (List Char)) (l : List Char) : List Char :=
  match jsSearchFirst m l with
  | some (pre, rest) => pre ++ rest
  | none => l

/-- RegExp.prototype.test for an anchored-nowhere pattern. -/
def testAnchor (m : List Char → Option (List Char)) (l : List Char) : Bool :=
  (jsSearchFirst m l).isSome

/-- Source function splitCombinedBlob (hero-section.tsx lines 323 to 346)
over character lists; the pair is verbal then written. -/
def splitCombinedBlob (blob : List Char) : List Char × List Char :=
  let s := normalizeL blob
  match jsSearchFirst writtenAt s with
  | some (before, rest) =>
    (trimL (replaceFirst verbalAt before), trimL rest)
  | none =>
    match jsSearchFirst verbalAt s with
    | some _ => (trimL (replaceFirst verbalAt s), [])
    | none => ([], s)

/-- JSON values as delivered to the results page, plus the JavaScript
undefined produced by a missing property. -/
inductive JsonVal where
  | null : JsonVal
  | undefined : JsonVal
  | bool : Bool → JsonVal
  | num : Int → JsonVal
  | str : String → JsonVal
  | arr : List JsonVal → JsonVal
  | obj : List (String × JsonVal) → JsonVal

/-- JavaScript nullishness: null or undefined. -/
def JsonVal.nullish : JsonVal → Bool
  | .null => true
  | .undefined => true
  | _ => false

/-- JavaScript truthiness of a JSON value. -/
def truthy : JsonVal → Bool
  | .null => false
  | .undefined => false
  | .bool b => b
  | .num n => if n = 0 then false else true
  | .str s => if s = "" then false else true
  | .arr _ => true
  | .obj _ => true

/-- The nullish-coalescing operator. -/
def jsCoalesce (a b : JsonVal) : JsonVal :=
  if a.nullish then b else a

/-- The or operator restricted to its use sites, where the right operand
is the value taken for a falsy left operand. -/
def jsOr (a b : JsonVal) : JsonVal :=
  if truthy a then a else b

/-- Property access: a key lookup on an object, undefined on a missing
key and on every non-object (at every call site of pickRfds the receiver
is never null or undefined, so no access throws). -/
def getField : JsonVal → String → JsonVal
  | .obj fs, k =>
    match fs.lookup k with
    | some v => v
    | none => .undefined
  | _, _ => .undefined

/-- One array element of the String conversion: null and undefined become
empty, scalars convert as usual; one nesting level only, which is enough
here because pickRfds only ever stringifies a string or a falsy value (a
truthy non-string has thrown at the blank test before any stringify). -/
def jsStringElem : JsonVal → String
  | .null => ""
  | .undefined => ""
  | .str s => s
  | .num n => toString n
  | .bool b => if b then "true" else "false"
  | .obj _ => "[object Object]"
  | .arr _ => ""

/-- The JavaScript String conversion, scalar cases exact, arrays joined
with commas as by Array.prototype.toString. -/
def jsString : JsonVal → String
  | .str s => s
  | .num n => toString n
  | .bool b => if b then "true" else "false"
  | .null => "null"
  | .undefined => "undefined"
  | .obj _ => "[object Object]"
  | .arr xs => String.intercalate "," (xs.map jsStringElem)

instance {α β : Type} [DecidableEq α] [DecidableEq β] : DecidableEq (Except α β)
  | .error a, .error b =>
    if h : a = b then .isTrue (by rw [h]) else .isFalse (by intro he; cases he; exact h rfl)
  | .error _, .ok _ => .isFalse (by intro h; cases h)
  | .ok _, .error _ => .isFalse (by intro h; cases h)
  | .ok a, .ok b =>
    if h : a = b then .isTrue (by rw [h]) else .isFalse (by intro he; cases he; exact h rfl)

/-- The test not-v or not-v.trim() of pickRfds (lines 365 and 372):
true when v is falsy or a blank string, a TypeError when v is truthy but
not a string, since only strings carry trim. -/
def emptyOrBlank (v : JsonVal) : Except Unit Bool :=
  if truthy v then
    match v with
    | .str s => .ok (trimL s.data).isEmpty
    | _ => .error ()
  else
    .ok true

/-- Line 350 of pickRfds: json or else the empty object. -/
def theJ (json : JsonVal) : JsonVal :=
  if truthy json then json else .obj []

/-- Line 351 of pickRfds: the judgeAnalysis, judge feedback or feedback
sub-object, defaulting to the empty object. -/
def theJA (json : JsonVal) : JsonVal :=
  jsCoalesce (getField (theJ json) "judgeAnalysis")
    (jsCoalesce (getField (theJ json) "judge_feedback")
      (jsCoalesce (getField (theJ json) "feedback") (.obj [])))

/-- Lines 353 to 354 of pickRfds: the verbal field under its aliases. -/
def verbal0 (json : JsonVal) : JsonVal :=
  jsCoalesce (getField (theJA json) "verbalRfd")
    (jsCoalesce (getField (theJA json) "verbal_rfd")
      (jsCoalesce (getField (theJ json) "verbalRfd")
        (jsCoalesce (getField (theJ json) "verbal_rfd") (.str ""))))

/-- Lines 355 to 356 of pickRfds: the written field under its aliases. -/
def written0 (json : JsonVal) : JsonVal :=
  jsCoalesce (getField (theJA json) "writtenRfd")
    (jsCoalesce (getField (theJA json) "written_rfd")
      (jsCoalesce (getField (theJ json) "writtenRfd")
        (jsCoalesce (getField (theJ json) "written_rfd") (.str ""))))

/-- Lines 359 to 363 of pickRfds: the combined blob candidate, the first
truthy value among a string judgeAnalysis rfd, a string written value
containing the WRITTEN anchor, and a string top-level rfd; empty when
none applies. -/
def combinedOf (json : JsonVal) : String :=
  let c1 := match getField (theJA json) "rfd" with
    | .str s => s
    | _ => ""
  let c2 := match written0 json with
    | .str w => if testAnchor writtenAt w.data then w else ""
    | _ => ""
  let c3 := match getField (theJ json) "rfd" with
    | .str s => s
    | _ => ""
  if c1 ≠ "" then c1 else if c2 ≠ "" then c2 else c3

/-- Lines 365 to 369 of pickRfds: when verbal is empty or blank and a
combined candidate exists, split it and fill whichever of the two values
is falsy; the blank test can throw on a truthy non-string verbal. -/
def afterCombined (json : JsonVal) : Except Unit (JsonVal × JsonVal) := do
  let eb ← emptyOrBlank (verbal0 json)
  if eb && combinedOf json ≠ "" then
    let sv := (splitCombinedBlob (combinedOf json).data).1
    let sw := (splitCombinedBlob (combinedOf json).data).2
    pure (if truthy (verbal0 json) then verbal0 json else .str ⟨sv⟩,
          if truthy (written0 json) then written0 json else .str ⟨sw⟩)
  else
    pure (verbal0 json, written0 json)

/-- Source function pickRfds (hero-section.tsx lines 349 to 380): alias
extraction, combined-blob fallback, flowNotes fallback, and a final
stringify-and-normalize of both values. -/
def pickRfds (json : JsonVal) : Except Unit (String × String) := do
  let vw ← afterCombined json
  let eb2 ← emptyOrBlank vw.2
  let isFlowStr := match getField (theJ json) "flowNotes" with
    | .str _ => true
    | _ => false
  let w2 := if eb2 && isFlowStr then getField (theJ json) "flowNotes" else vw.2
  pure (normalizeText (jsString (jsOr vw.1 (.str ""))),
        normalizeText (jsString (jsOr w2 (.str ""))))

/-- The extraction pipeline with the combined-blob stage removed, used to
state that a non-blank explicit verbal value makes the combined blob
irrelevant. -/
def pickRfdsNoCombined (json : JsonVal) : Except Unit (String × String) := do
  let eb2 ← emptyOrBlank (written0 json)
  let isFlowStr := match getField (theJ json) "flowNotes" with
    | .str _ => true
    | _ => false
  let w2 := if eb2 && isFlowStr then getField (theJ json) "flowNotes" else written0 json
  pure (normalizeText (jsString (jsOr (verbal0 json) (.str ""))),
        normalizeText (jsString (jsOr w2 (.str ""))))

/-- First alternative of the HEADING regex (line 393): Aff or Neg, some
whitespace, one of four speech names, optional whitespace, a colon. -/
def heading1 (l : List Char) : Bool :=
  match (matchLit "aff".data l).orElse (fun _ => matchLit "neg".data l) with
  | some (c :: r) =>
    if isJsWS c then
      let r2 := r.dropWhile isJsWS
      let m := (matchLit "constructive".data r2).orElse (fun _ =>
        (matchLit "rebuttal".data r2).orElse (fun _ =>
          (matchLit "summary".data r2).orElse (fun _ =>
            match matchLit "final".data r2 with
            | none => none
            | some rf => matchLit "focus".data (rf.dropWhile isJsWS))))
      match m with
      | some r3 => (r3.dropWhile isJsWS).head? = some ':'
      | none => false
    else false
  | _ => false

/-- Second alternative of the HEADING regex: Crossfire, an optional
number, a colon. -/
def heading2 (l : List Char) : Bool :=
  match matchLit "crossfire".data l with
  | none => false
  | some r =>
    (((r.dropWhile isJsWS).dropWhile isDigitJs).dropWhile isJsWS).head? = some ':'

/-- Third alternative of the HEADING regex: Grand Crossfire and a colon
at the very end of the line. -/
def heading3 (l : List Char) : Bool :=
  match matchLit "grand".data l with
  | none => false
  | some r =>
    match matchLit "crossfire".data (r.dropWhile isJsWS) with
    | none => false
    | some r2 => r2.dropWhile isJsWS = [':']

/-- The HEADING regex test of toSectionedHTML (line 393). -/
def headingTest (l : List Char) : Bool :=
  heading1 l || heading2 l || heading3 l

/-- The standalone Verbal RFD label test of toSectionedHTML (line 412):
verbal, rfd, a colon, anchored at both ends. -/
def verbalLabelTest (l : List Char) : Bool :=
  match matchLit "verbal".data l with
  | none => false
  | some r =>
    match matchLit "rfd".data (r.dropWhile isJsWS) with
    | none => false
    | some r2 => r2.dropWhile isJsWS = [':']

/-- Line 421 of toSectionedHTML: drop one trailing colon of a heading
line. -/
def dropTrailingColon (l : List Char) : List Char :=
  if l.getLast? = some ':' then l.dropLast else l

/-- The opening tag of the heading blocks emitted by toSectionedHTML. -/
def h3Open : List Char :=
  "<h3 class=\"text-lg font-semibold mb-2\">".data

/-- JavaScript Array.prototype.join with a one-space separator. -/
def joinSp : List (List Char) → List Char
  | [] => []
  | [p] => p
  | p :: ps => p ++ ' ' :: joinSp ps

/-- flushPara of toSectionedHTML (lines 399 to 404): join the buffered
lines with spaces, collapse whitespace runs, trim, and append a paragraph
block when the text is non-empty. -/
def flushP (out : List (List Char)) (para : List (List Char)) : List (List Char) :=
  if para.isEmpty then out
  else
    let text := trimL (collapseWS (joinSp para))
    if text.isEmpty then out else out ++ ["<p>".data ++ text ++ "</p>".data]

/-- The loop body of toSectionedHTML (lines 406 to 425) acting on the
accumulated blocks and the paragraph buffer. -/
def sectionStep (acc : List (List Char) × List (List Char)) (raw : List Char) :
    List (List Char) × List (List Char) :=
  let line := trimL raw
  if line.isEmpty then (flushP acc.1 acc.2, [])
  else if headingTest line then
    (flushP acc.1 acc.2 ++ [h3Open ++ dropTrailingColon line ++ "</h3>".data], [])
  else if verbalLabelTest line then (flushP acc.1 acc.2, [])
  else if testAnchor writtenAt line then (flushP acc.1 acc.2, [])
  else (acc.1, acc.2 ++ [line])

/-- The block list produced by toSectionedHTML for a non-empty input. -/
def sectionBlocks (src : List Char) : List (List Char) :=
  let acc := (splitOnChar '\n' (escL src)).foldl sectionStep ([], [])
  flushP acc.1 acc.2

/-- Source function toSectionedHTML (hero-section.tsx lines 390 to 427). -/
def toSectionedHTML (src : String) : String :=
  if src = "" then "<p>Not provided.</p>"
  else String.intercalate "\n" ((sectionBlocks src.data).map String.mk)

/-- The trimmed non-empty paragraph pieces of toVerbalHTML. -/
def verbalParts (src : List Char) : List (List Char) :=
  let s := trimL (collapseNL (escL src))
  ((splitBlank s).map trimL).filter (fun p => !p.isEmpty)

/-- Source function toVerbalHTML (hero-section.tsx lines 430 to 437). -/
def toVerbalHTML (src : String) : String :=
  if src = "" then "<p>Not provided.</p>"
  else
    String.intercalate "\n"
      ((verbalParts src.data).map (fun p => String.mk ("<p>".data ++ p ++ "</p>".data)))

/-- An output block of the formatters: a paragraph or a heading, carrying
its enclosed text. -/
inductive Block where
  | para : List Char → Block
  | head : List Char → Block
deriving DecidableEq

/-- The markup of a block. -/
def Block.render : Block → List Char
  | .para t => "<p>".data ++ t ++ "</p>".data
  | .head t => h3Open ++ t ++ "</h3>".data

/-- The enclosed text of a block. -/
def Block.text : Block → List Char
  | .para t => t
  | .head t => t

/-- Whether a block is a paragraph. -/
def Block.isPara : Block → Bool
  | .para _ => true
  | .head _ => false

/-- A good block list: every text is escape-clean and every paragraph
text is non-empty. -/
def GoodBlocks (bs : List Block) : Prop :=
  ∀ b ∈ bs, escClean b.text = true ∧ (b.isPara = true → b.text ≠ [])

/-- The least index at which a matcher succeeds, phrased by exhaustive
search over all indices; the comparison point for the index-free search
of the embedding. -/
def specFirstMatch (m : List Char → Option (List Char)) (l : List Char) : Option Nat :=
  (List.range (l.length + 1)).find? (fun i => (m (l.drop i)).isSome)

/-- The combined-blob splitter as the specification words it: on the
normalized text, everything before the first WRITTEN-anchor occurrence,
with any VERBAL-anchor label stripped, is verbal, and everything from the
anchor onward with the anchor text removed is written; with no WRITTEN
anchor but a VERBAL anchor, the whole text minus the label is verbal;
otherwise the whole text is written. -/
def splitCombinedBlobSpec (blob : List Char) : List Char × List Char :=
  let s := normalizeL blob
  match specFirstMatch writtenAt s with
  | some i =>
    let afterAnchor := match writtenAt (s.drop i) with
      | some r => r
      | none => s.drop i
    (trimL (replaceFirst verbalAt (s.take i)), trimL afterAnchor)
  | none =>
    match specFirstMatch verbalAt s with
    | some _ => (trimL (replaceFirst verbalAt s), [])
    | none => ([], s)

/-! Basic facts about esc and escape-cleanliness. -/

theorem replAll_append (c : Char) (r a b : List Char) :
    replAll c r (a ++ b) = replAll c r a ++ replAll c r b := by
  induction a with
  | nil => simp [replAll]
  | cons x xs ih => simp [replAll, ih]

theorem escL_nil : escL [] = [] := rfl

theorem escL_cons (c : Char) (xs : List Char) :
    escL (c :: xs) = escChar c ++ escL xs := by
  by_cases h1 : c = '&'
  · subst h1; simp [escL, escChar, replAll, replAll_append]
  · by_cases h2 : c = '<'
    · subst h2; simp [escL, escChar, replAll, replAll_append]
    · by_cases h3 : c = '>'
      · subst h3; simp [escL, escChar, replAll, replAll_append]
      · simp [escL, escChar, replAll, replAll_append, h1, h2, h3]

theorem escClean_nil : escClean [] = true := by
  simp [escClean]

theorem escClean_cons_amp (xs : List Char) :
    escClean ('&' :: 'a' :: 'm' :: 'p' :: ';' :: xs) = escClean xs := by
  rw [escClean]
  have h4 : ("amp;".data : List Char) = ['a', 'm', 'p', ';'] := rfl
  simp [h4, List.take, List.drop]

theorem escClean_cons_lt (xs : List Char) :
    escClean ('&' :: 'l' :: 't' :: ';' :: xs) = escClean xs := by
  rw [escClean]
  have h4 : ("amp;".data : List Char) = ['a', 'm', 'p', ';'] := rfl
  have h3 : ("lt;".data : List Char) = ['l', 't', ';'] := rfl
  simp [h4, h3, List.take, List.drop]

theorem escClean_cons_gt (xs : List Char) :
    escClean ('&' :: 'g' :: 't' :: ';' :: xs) = escClean xs := by
  rw [escClean]
  have h4 : ("amp;".data : List Char) = ['a', 'm', 'p', ';'] := rfl
  have h3 : ("lt;".data : List Char) = ['l', 't', ';'] := rfl
  have g3 : ("gt;".data : List Char) = ['g', 't', ';'] := rfl
  simp [h4, h3, g3, List.take, List.drop]

theorem escClean_cons_plain (c : Char) (xs : List Char)
    (h1 : c ≠ '&') (h2 : c ≠ '<') (h3 : c ≠ '>') :
    escClean (c :: xs) = escClean xs := by
  rw [escClean]
  simp [h1, h2, h3]

theorem escClean_cons_special (c : Char) (xs : List Char) (h : c = '<' ∨ c = '>') :
    escClean (c :: xs) = false := by
  rw [escClean]
  rcases h with rfl | rfl <;> simp

theorem escClean_tail_amp (r : List Char) :
    escClean ('a' :: 'm' :: 'p' :: ';' :: r) = escClean r := by
  rw [escClean_cons_plain 'a' _ (by decide) (by decide) (by decide)]
  rw [escClean_cons_plain 'm' _ (by decide) (by decide) (by decide)]
  rw [escClean_cons_plain 'p' _ (by decide) (by decide) (by decide)]
  rw [escClean_cons_plain ';' _ (by decide) (by decide) (by decide)]

theorem escClean_tail_lt (r : List Char) :
    escClean ('l' :: 't' :: ';' :: r) = escClean r := by
  rw [escClean_cons_plain 'l' _ (by decide) (by decide) (by decide)]
  rw [escClean_cons_plain 't' _ (by decide) (by decide) (by decide)]
  rw [escClean_cons_plain ';' _ (by decide) (by decide) (by decide)]

theorem escClean_tail_gt (r : List Char) :
    escClean ('g' :: 't' :: ';' :: r) = escClean r := by
  rw [escClean_cons_plain 'g' _ (by decide) (by decide) (by decide)]
  rw [escClean_cons_plain 't' _ (by decide) (by decide) (by decide)]
  rw [escClean_cons_plain ';' _ (by decide) (by decide) (by decide)]

theorem escClean_escL (l : List Char) : escClean (escL l) = true := by
  induction l with
  | nil => simp [escL_nil, escClean_nil]
  | cons c xs ih =>
    rw [escL_cons]
    by_cases h1 : c = '&'
    · subst h1
      show escClean ('&' :: 'a' :: 'm' :: 'p' :: ';' :: escL xs) = true
      rw [escClean_cons_amp]
      exact ih
    · by_cases h2 : c = '<'
      · subst h2
        show escClean ('&' :: 'l' :: 't' :: ';' :: escL xs) = true
        rw [escClean_cons_lt]
        exact ih
      · by_cases h3 : c = '>'
        · subst h3
          show escClean ('&' :: 'g' :: 't' :: ';' :: escL xs) = true
          rw [escClean_cons_gt]
          exact ih
        · have : escChar c = [c] := by simp [escChar, h1, h2, h3]
          rw [this]
          show escClean (c :: escL xs) = true
          rw [escClean_cons_plain c _ h1 h2 h3]
          exact ih

theorem escClean_amp_cases (xs : List Char) (h : escClean ('&' :: xs) = true) :
    (∃ r, xs = 'a' :: 'm' :: 'p' :: ';' :: r ∧ escClean r = true) ∨
    (∃ r, xs = 'l' :: 't' :: ';' :: r ∧ escClean r = true) ∨
    (∃ r, xs = 'g' :: 't' :: ';' :: r ∧ escClean r = true) := by
  rw [escClean] at h
  have h4 : ("amp;".data : List Char) = ['a', 'm', 'p', ';'] := rfl
  have l3 : ("lt;".data : List Char) = ['l', 't', ';'] := rfl
  have g3 : ("gt;".data : List Char) = ['g', 't', ';'] := rfl
  rw [h4, l3, g3] at h
  simp only [show (('&' = '<' || '&' = '>') : Bool) = false from by decide,
    show (('&' = '&') : Bool) = true from by decide, Bool.false_eq_true, if_false, if_true] at h
  split at h
  · left
    rename_i htake
    refine ⟨xs.drop 4, ?_, h⟩
    conv_lhs => rw [← List.take_append_drop 4 xs]
    rw [htake]
    simp
  · split at h
    · right; left
      rename_i htake
      refine ⟨xs.drop 3, ?_, h⟩
      conv_lhs => rw [← List.take_append_drop 3 xs]
      rw [htake]
      simp
    · split at h
      · right; right
        rename_i htake
        refine ⟨xs.drop 3, ?_, h⟩
        conv_lhs => rw [← List.take_append_drop 3 xs]
        rw [htake]
        simp
      · exact absurd h (by simp)

theorem escClean_tail (c : Char) (xs : List Char) (h : escClean (c :: xs) = true) :
    escClean xs = true := by
  by_cases h1 : c = '&'
  · subst h1
    rcases escClean_amp_cases xs h with ⟨r, hxs, hr⟩ | ⟨r, hxs, hr⟩ | ⟨r, hxs, hr⟩ <;> subst hxs
    · rw [escClean_tail_amp]; exact hr
    · rw [escClean_tail_lt]; exact hr
    · rw [escClean_tail_gt]; exact hr
  · by_cases h2 : c = '<'
    · subst h2; rw [escClean_cons_special '<' _ (Or.inl rfl)] at h; cases h
    · by_cases h3 : c = '>'
      · subst h3; rw [escClean_cons_special '>' _ (Or.inr rfl)] at h; cases h
      · rwa [escClean_cons_plain c _ h1 h2 h3] at h

theorem escClean_suffix (a b : List Char) (h : escClean (a ++ b) = true) :
    escClean b = true := by
  induction a with
  | nil => exact h
  | cons c a' ih =>
    rw [List.cons_append] at h
    exact ih (escClean_tail c _ h)

theorem escClean_append_left_fuel :
    ∀ (n : Nat) (a b : List Char), a.length ≤ n → escClean a = true →
      escClean (a ++ b) = escClean b := by
  intro n
  induction n with
  | zero =>
    intro a b hl _
    have : a = [] := List.length_eq_zero.mp (Nat.le_zero.mp hl)
    subst this
    simp
  | succ n ih =>
    intro a b hl h
    match a with
    | [] => simp
    | c :: a' =>
      by_cases h1 : c = '&'
      · subst h1
        rcases escClean_amp_cases a' h with ⟨r, hxs, hr⟩ | ⟨r, hxs, hr⟩ | ⟨r, hxs, hr⟩ <;>
          subst hxs <;> simp only [List.cons_append]
        · rw [escClean_cons_amp]
          exact ih r b (by simp at hl; omega) hr
        · rw [escClean_cons_lt]
          exact ih r b (by simp at hl; omega) hr
        · rw [escClean_cons_gt]
          exact ih r b (by simp at hl; omega) hr
      · by_cases h2 : c = '<'
        · subst h2; rw [escClean_cons_special '<' _ (Or.inl rfl)] at h; cases h
        · by_cases h3 : c = '>'
          · subst h3; rw [escClean_cons_special '>' _ (Or.inr rfl)] at h; cases h
          · rw [escClean_cons_plain c _ h1 h2 h3] at h
            rw [List.cons_append, escClean_cons_plain c _ h1 h2 h3]
            exact ih a' b (by simp at hl; omega) h

theorem escClean_append_left (a b : List Char) (h : escClean a = true) :
    escClean (a ++ b) = escClean b :=
  escClean_append_left_fuel a.length a b (Nat.le_refl _) h

theorem escTailChar_false_of_isJsWS (c : Char) (h : isJsWS c = true) :
    escTailChar c = false := by
  by_contra hb
  have ht : escTailChar c = true := by
    cases hv : escTailChar c
    · exact absurd hv hb
    · rfl
  simp only [escTailChar, Bool.or_eq_true, decide_eq_true_eq] at ht
  rcases ht with ((((((rfl | rfl) | rfl) | rfl) | rfl) | rfl) | rfl) <;>
    exact absurd h (by decide)

theorem isJsWS_ne_special (c : Char) (h : isJsWS c = true) :
    c ≠ '&' ∧ c ≠ '<' ∧ c ≠ '>' := by
  refine ⟨?_, ?_, ?_⟩ <;> rintro rfl <;> exact absurd h (by decide)

theorem escClean_cut_fuel :
    ∀ (n : Nat) (a b : List Char), a.length ≤ n → escClean (a ++ b) = true →
      (∀ c, b.head? = some c → escTailChar c = false) → escClean a = true := by
  intro n
  induction n with
  | zero =>
    intro a b hl _ _
    have : a = [] := List.length_eq_zero.mp (Nat.le_zero.mp hl)
    subst this
    exact escClean_nil
  | succ n ih =>
    intro a b hl h hb
    match a with
    | [] => exact escClean_nil
    | c :: a' =>
      rw [List.cons_append] at h
      by_cases h1 : c = '&'
      · subst h1
        have pat_amp : ∀ x ∈ ['a', 'm', 'p', ';'], escTailChar x = true := by decide
        have pat_lt : ∀ x ∈ ['l', 't', ';'], escTailChar x = true := by decide
        have pat_gt : ∀ x ∈ ['g', 't', ';'], escTailChar x = true := by decide
        rcases escClean_amp_cases (a' ++ b) h with ⟨r, hxs, hr⟩ | ⟨r, hxs, hr⟩ | ⟨r, hxs, hr⟩
        · have hx : a' ++ b = ['a', 'm', 'p', ';'] ++ r := hxs
          rcases List.append_eq_append_iff.mp hx with ⟨t, hpat, hbr⟩ | ⟨t, ha', hrt⟩
          · match t, hpat, hbr with
            | [], hpat, hbr =>
              have ha' : a' = ['a', 'm', 'p', ';'] := by simpa using hpat.symm
              subst ha'
              rw [show ('&' :: ['a', 'm', 'p', ';'] : List Char) =
                '&' :: 'a' :: 'm' :: 'p' :: ';' :: [] from rfl, escClean_cons_amp]
              exact escClean_nil
            | c0 :: t', hpat, hbr =>
              have hc0 : c0 ∈ ['a', 'm', 'p', ';'] := by
                rw [hpat]
                exact List.mem_append_right a' (List.mem_cons_self c0 t')
              have : escTailChar c0 = false := hb c0 (by rw [hbr]; rfl)
              rw [pat_amp c0 hc0] at this
              cases this
          · subst ha'
            rw [show ('&' :: (['a', 'm', 'p', ';'] ++ t) : List Char) =
              '&' :: 'a' :: 'm' :: 'p' :: ';' :: t from rfl, escClean_cons_amp]
            rw [hrt] at hr
            exact ih t b (by simp at hl; omega) hr hb
        · have hx : a' ++ b = ['l', 't', ';'] ++ r := hxs
          rcases List.append_eq_append_iff.mp hx with ⟨t, hpat, hbr⟩ | ⟨t, ha', hrt⟩
          · match t, hpat, hbr with
            | [], hpat, hbr =>
              have ha' : a' = ['l', 't', ';'] := by simpa using hpat.symm
              subst ha'
              rw [show ('&' :: ['l', 't', ';'] : List Char) =
                '&' :: 'l' :: 't' :: ';' :: [] from rfl, escClean_cons_lt]
              exact escClean_nil
            | c0 :: t', hpat, hbr =>
              have hc0 : c0 ∈ ['l', 't', ';'] := by
                rw [hpat]
                exact List.mem_append_right a' (List.mem_cons_self c0 t')
              have : escTailChar c0 = false := hb c0 (by rw [hbr]; rfl)
              rw [pat_lt c0 hc0] at this
              cases this
          · subst ha'
            rw [show ('&' :: (['l', 't', ';'] ++ t) : List Char) =
              '&' :: 'l' :: 't' :: ';' :: t from rfl, escClean_cons_lt]
            rw [hrt] at hr
            exact ih t b (by simp at hl; omega) hr hb
        · have hx : a' ++ b = ['g', 't', ';'] ++ r := hxs
          rcases List.append_eq_append_iff.mp hx with ⟨t, hpat, hbr⟩ | ⟨t, ha', hrt⟩
          · match t, hpat, hbr with
            | [], hpat, hbr =>
              have ha' : a' = ['g', 't', ';'] := by simpa using hpat.symm
              subst ha'
              rw [show ('&' :: ['g', 't', ';'] : List Char) =
                '&' :: 'g' :: 't' :: ';' :: [] from rfl, escClean_cons_gt]
              exact escClean_nil
            | c0 :: t', hpat, hbr =>
              have hc0 : c0 ∈ ['g', 't', ';'] := by
                rw [hpat]
                exact List.mem_append_right a' (List.mem_cons_self c0 t')
              have : escTailChar c0 = false := hb c0 (by rw [hbr]; rfl)
              rw [pat_gt c0 hc0] at this
              cases this
          · subst ha'
            rw [show ('&' :: (['g', 't', ';'] ++ t) : List Char) =
              '&' :: 'g' :: 't' :: ';' :: t from rfl, escClean_cons_gt]
            rw [hrt] at hr
            exact ih t b (by simp at hl; omega) hr hb
      · by_cases h2 : c = '<'
        · subst h2; rw [escClean_cons_special '<' _ (Or.inl rfl)] at h; cases h
        · by_cases h3 : c = '>'
          · subst h3; rw [escClean_cons_special '>' _ (Or.inr rfl)] at h; cases h
          · rw [escClean_cons_plain c _ h1 h2 h3] at h
            rw [escClean_cons_plain c _ h1 h2 h3]
            exact ih a' b (by simp at hl; omega) h hb

theorem escClean_cut (a b : List Char) (h : escClean (a ++ b) = true)
    (hb : ∀ c, b.head? = some c → escTailChar c = false) : escClean a = true :=
  escClean_cut_fuel a.length a b (Nat.le_refl _) h hb

/-! Preservation of escape-cleanliness by the formatting helpers. -/

theorem escClean_dropWhile_ws (l : List Char) (h : escClean l = true) :
    escClean (l.dropWhile isJsWS) = true := by
  induction l with
  | nil => exact h
  | cons c xs ih =>
    by_cases hc : isJsWS c
    · rw [List.dropWhile_cons_of_pos hc]
      exact ih (escClean_tail c xs h)
    · rw [List.dropWhile_cons_of_neg hc]
      exact h

theorem trimR_decomp (l : List Char) :
    ∃ w, l = (l.reverse.dropWhile isJsWS).reverse ++ w ∧ ∀ c ∈ w, isJsWS c = true := by
  refine ⟨(l.reverse.takeWhile isJsWS).reverse, ?_, ?_⟩
  · conv_lhs => rw [← l.reverse_reverse, ← List.takeWhile_append_dropWhile isJsWS l.reverse]
    rw [List.reverse_append]
  · intro c hc
    exact List.mem_takeWhile_imp (List.mem_reverse.mp hc)

theorem escClean_trimR (l : List Char) (h : escClean l = true) :
    escClean (l.reverse.dropWhile isJsWS).reverse = true := by
  obtain ⟨w, hw, hws⟩ := trimR_decomp l
  rw [hw] at h
  refine escClean_cut _ w h ?_
  intro c hc
  exact escTailChar_false_of_isJsWS c (hws c (List.mem_of_mem_head? hc))

theorem escClean_trimL (l : List Char) (h : escClean l = true) :
    escClean (trimL l) = true :=
  escClean_trimR _ (escClean_dropWhile_ws l h)

theorem escClean_of_all_plain (l : List Char)
    (h : l.all (fun c => !(c == '&' || c == '<' || c == '>')) = true) :
    escClean l = true := by
  induction l with
  | nil => exact escClean_nil
  | cons c xs ih =>
    rw [List.all_cons] at h
    obtain ⟨h1, h2⟩ := Bool.and_eq_true_iff.mp h
    simp only [Bool.not_eq_true', Bool.or_eq_false_iff, beq_eq_false_iff_ne] at h1
    rw [escClean_cons_plain c xs h1.1.1 h1.1.2 h1.2]
    exact ih h2

theorem escClean_joinSp (ps : List (List Char)) (h : ∀ p ∈ ps, escClean p = true) :
    escClean (joinSp ps) = true := by
  induction ps with
  | nil => exact escClean_nil
  | cons p ps ih =>
    cases ps with
    | nil =>
      show escClean p = true
      exact h p (List.mem_cons_self _ _)
    | cons q qs =>
      show escClean (p ++ ' ' :: joinSp (q :: qs)) = true
      rw [escClean_append_left p _ (h p (List.mem_cons_self _ _)),
        escClean_cons_plain ' ' _ (by decide) (by decide) (by decide)]
      exact ih (fun r hr => h r (List.mem_cons_of_mem p hr))

theorem collapseWSAux_cons_nonws (c : Char) (xs : List Char) (h : isJsWS c = false) :
    collapseWSAux false (c :: xs) = c :: collapseWSAux false xs := by
  cases xs with
  | nil => simp [collapseWSAux, h]
  | cons d t => simp [collapseWSAux, h]

theorem escClean_collapseWSAux_fuel :
    ∀ (n : Nat) (skip : Bool) (l : List Char), l.length ≤ n → escClean l = true →
      escClean (collapseWSAux skip l) = true := by
  intro n
  induction n with
  | zero =>
    intro skip l hl _
    have : l = [] := List.length_eq_zero.mp (Nat.le_zero.mp hl)
    subst this
    exact escClean_nil
  | succ n ih =>
    intro skip l hl h
    match l with
    | [] => exact escClean_nil
    | c :: xs =>
      by_cases hskip : (skip && isJsWS c) = true
      · obtain ⟨hsk, hws⟩ := Bool.and_eq_true_iff.mp hskip
        subst hsk
        have hrw : collapseWSAux true (c :: xs) = collapseWSAux true xs := by
          simp [collapseWSAux, hws]
        rw [hrw]
        exact ih true xs (by simp at hl; omega) (escClean_tail c xs h)
      · have hsk : (skip && isJsWS c) = false := Bool.eq_false_iff.mpr hskip
        match xs with
        | [] =>
          have hrw : collapseWSAux skip [c] = [c] := by simp [collapseWSAux, hsk]
          rw [hrw]
          exact h
        | d :: t =>
          by_cases hcd : (isJsWS c && isJsWS d) = true
          · have hrw : collapseWSAux skip (c :: d :: t) = ' ' :: collapseWSAux true (d :: t) := by
              simp [collapseWSAux, hsk, hcd]
            rw [hrw, escClean_cons_plain ' ' _ (by decide) (by decide) (by decide)]
            exact ih true (d :: t) (by simp at hl ⊢; omega) (escClean_tail c _ h)
          · have hcd' : (isJsWS c && isJsWS d) = false := Bool.eq_false_iff.mpr hcd
            have hrw : collapseWSAux skip (c :: d :: t) = c :: collapseWSAux false (d :: t) := by
              simp [collapseWSAux, hsk, hcd']
            rw [hrw]
            by_cases h1 : c = '&'
            · subst h1
              rcases escClean_amp_cases (d :: t) h with ⟨r, hxs, hr⟩ | ⟨r, hxs, hr⟩ | ⟨r, hxs, hr⟩ <;>
                rw [hxs]
              · rw [collapseWSAux_cons_nonws 'a' _ (by decide),
                  collapseWSAux_cons_nonws 'm' _ (by decide),
                  collapseWSAux_cons_nonws 'p' _ (by decide),
                  collapseWSAux_cons_nonws ';' _ (by decide), escClean_cons_amp]
                exact ih false r (by rw [hxs] at hl; simp at hl; omega) hr
              · rw [collapseWSAux_cons_nonws 'l' _ (by decide),
                  collapseWSAux_cons_nonws 't' _ (by decide),
                  collapseWSAux_cons_nonws ';' _ (by decide), escClean_cons_lt]
                exact ih false r (by rw [hxs] at hl; simp at hl; omega) hr
              · rw [collapseWSAux_cons_nonws 'g' _ (by decide),
                  collapseWSAux_cons_nonws 't' _ (by decide),
                  collapseWSAux_cons_nonws ';' _ (by decide), escClean_cons_gt]
                exact ih false r (by rw [hxs] at hl; simp at hl; omega) hr
            · by_cases h2 : c = '<'
              · subst h2; rw [escClean_cons_special '<' _ (Or.inl rfl)] at h; cases h
              · by_cases h3 : c = '>'
                · subst h3; rw [escClean_cons_special '>' _ (Or.inr rfl)] at h; cases h
                · rw [escClean_cons_plain c _ h1 h2 h3]
                  rw [escClean_cons_plain c _ h1 h2 h3] at h
                  exact ih false (d :: t) (by simp at hl ⊢; omega) h

theorem escClean_collapseWS (l : List Char) (h : escClean l = true) :
    escClean (collapseWS l) = true :=
  escClean_collapseWSAux_fuel l.length false l (Nat.le_refl _) h

theorem escClean_dropTrailingColon (l : List Char) (h : escClean l = true) :
    escClean (dropTrailingColon l) = true := by
  rw [dropTrailingColon]
  by_cases hc : l.getLast? = some ':'
  · rw [if_pos hc]
    have hne : l ≠ [] := by
      intro he
      subst he
      cases hc
    have hlast : l.getLast hne = ':' := by
      have h2 := List.getLast?_eq_getLast l hne
      rw [h2] at hc
      exact Option.some.inj hc
    have hdec : l = l.dropLast ++ [':'] := by
      conv_lhs => rw [← List.dropLast_append_getLast hne]
      rw [hlast]
    rw [hdec] at h
    refine escClean_cut _ [':'] h ?_
    intro c hcc
    have : c = ':' := by
      simp only [List.head?_cons] at hcc
      exact (Option.some.inj hcc).symm
    subst this
    decide
  · rw [if_neg hc]
    exact h

theorem splitOnChar_ne_nil (sep : Char) (l : List Char) : splitOnChar sep l ≠ [] := by
  cases l with
  | nil => simp [splitOnChar]
  | cons c xs =>
    rw [splitOnChar]
    cases splitOnChar sep xs with
    | nil => simp
    | cons h t =>
      by_cases hc : c = sep <;> simp [hc]

theorem splitOnChar_cons_ne (sep c : Char) (xs : List Char) (hc : c ≠ sep) :
    ∃ h t, splitOnChar sep xs = h :: t ∧ splitOnChar sep (c :: xs) = (c :: h) :: t := by
  rcases hx : splitOnChar sep xs with _ | ⟨h, t⟩
  · exact absurd hx (splitOnChar_ne_nil sep xs)
  · exact ⟨h, t, rfl, by rw [splitOnChar, hx]; simp [hc]⟩

theorem splitOnChar_cons_sep (sep : Char) (xs : List Char) :
    splitOnChar sep (sep :: xs) = [] :: splitOnChar sep xs := by
  rcases hx : splitOnChar sep xs with _ | ⟨h, t⟩
  · exact absurd hx (splitOnChar_ne_nil sep xs)
  · rw [splitOnChar, hx]
    simp

theorem splitOnChar_append_not_mem (sep : Char) (a l : List Char) (ha : sep ∉ a) :
    ∃ h t, splitOnChar sep l = h :: t ∧ splitOnChar sep (a ++ l) = (a ++ h) :: t := by
  induction a with
  | nil =>
    rcases hx : splitOnChar sep l with _ | ⟨h, t⟩
    · exact absurd hx (splitOnChar_ne_nil sep l)
    · exact ⟨h, t, rfl, by simpa using hx⟩
  | cons c a' ih =>
    have hc : c ≠ sep := fun he => ha (he ▸ List.mem_cons_self c a')
    obtain ⟨h, t, hl', hrec⟩ := ih (fun hm => ha (List.mem_cons_of_mem _ hm))
    obtain ⟨h2, t2, ha'l, hcons⟩ := splitOnChar_cons_ne sep c (a' ++ l) hc
    rw [hrec] at ha'l
    cases ha'l
    exact ⟨h, t, hl', by rw [List.cons_append, hcons]; rfl⟩

theorem escClean_splitOnChar_fuel :
    ∀ (n : Nat) (l : List Char), l.length ≤ n → escClean l = true →
      ∀ p ∈ splitOnChar '\n' l, escClean p = true := by
  intro n
  induction n with
  | zero =>
    intro l hl _ p hp
    have : l = [] := List.length_eq_zero.mp (Nat.le_zero.mp hl)
    subst this
    simp [splitOnChar] at hp
    subst hp
    exact escClean_nil
  | succ n ih =>
    intro l hl h p hp
    match l with
    | [] =>
      simp [splitOnChar] at hp
      subst hp
      exact escClean_nil
    | c :: xs =>
      by_cases hc : c = '\n'
      · subst hc
        rw [splitOnChar_cons_sep] at hp
        rcases List.mem_cons.mp hp with rfl | hp'
        · exact escClean_nil
        · exact ih xs (by simp at hl; omega) (escClean_tail _ _ h) p hp'
      · by_cases h1 : c = '&'
        · subst h1
          rcases escClean_amp_cases xs h with ⟨r, hxs, hr⟩ | ⟨r, hxs, hr⟩ | ⟨r, hxs, hr⟩ <;>
              subst hxs
          · obtain ⟨hh, tt, hsr, hrw⟩ :=
              splitOnChar_append_not_mem '\n' ['&', 'a', 'm', 'p', ';'] r (by decide)
            rw [show (['&', 'a', 'm', 'p', ';'] ++ r : List Char) =
              '&' :: 'a' :: 'm' :: 'p' :: ';' :: r from rfl] at hrw
            rw [hrw] at hp
            rcases List.mem_cons.mp hp with rfl | hp'
            · rw [show (['&', 'a', 'm', 'p', ';'] ++ hh : List Char) =
                '&' :: 'a' :: 'm' :: 'p' :: ';' :: hh from rfl, escClean_cons_amp]
              exact ih r (by simp at hl; omega) hr hh (by rw [hsr]; exact List.mem_cons_self _ _)
            · exact ih r (by simp at hl; omega) hr p (by rw [hsr]; exact List.mem_cons_of_mem _ hp')
          · obtain ⟨hh, tt, hsr, hrw⟩ :=
              splitOnChar_append_not_mem '\n' ['&', 'l', 't', ';'] r (by decide)
            rw [show (['&', 'l', 't', ';'] ++ r : List Char) =
              '&' :: 'l' :: 't' :: ';' :: r from rfl] at hrw
            rw [hrw] at hp
            rcases List.mem_cons.mp hp with rfl | hp'
            · rw [show (['&', 'l', 't', ';'] ++ hh : List Char) =
                '&' :: 'l' :: 't' :: ';' :: hh from rfl, escClean_cons_lt]
              exact ih r (by simp at hl; omega) hr hh (by rw [hsr]; exact List.mem_cons_self _ _)
            · exact ih r (by simp at hl; omega) hr p (by rw [hsr]; exact List.mem_cons_of_mem _ hp')
          · obtain ⟨hh, tt, hsr, hrw⟩ :=
              splitOnChar_append_not_mem '\n' ['&', 'g', 't', ';'] r (by decide)
            rw [show (['&', 'g', 't', ';'] ++ r : List Char) =
              '&' :: 'g' :: 't' :: ';' :: r from rfl] at hrw
            rw [hrw] at hp
            rcases List.mem_cons.mp hp with rfl | hp'
            · rw [show (['&', 'g', 't', ';'] ++ hh : List Char) =
                '&' :: 'g' :: 't' :: ';' :: hh from rfl, escClean_cons_gt]
              exact ih r (by simp at hl; omega) hr hh (by rw [hsr]; exact List.mem_cons_self _ _)
            · exact ih r (by simp at hl; omega) hr p (by rw [hsr]; exact List.mem_cons_of_mem _ hp')
        · obtain ⟨hh, tt, hsx, hrw⟩ := splitOnChar_cons_ne '\n' c xs hc
          rw [hrw] at hp
          have hxs : escClean xs = true := escClean_tail c xs h
          rcases List.mem_cons.mp hp with rfl | hp'
          · by_cases h2 : c = '<'
            · subst h2; rw [escClean_cons_special '<' _ (Or.inl rfl)] at h; cases h
            · by_cases h3 : c = '>'
              · subst h3; rw [escClean_cons_special '>' _ (Or.inr rfl)] at h; cases h
              · rw [escClean_cons_plain c _ h1 h2 h3]
                exact ih xs (by simp at hl; omega) hxs hh
                  (by rw [hsx]; exact List.mem_cons_self _ _)
          · exact ih xs (by simp at hl; omega) hxs p (by rw [hsx]; exact List.mem_cons_of_mem _ hp')

theorem escClean_splitOnChar (l : List Char) (h : escClean l = true) :
    ∀ p ∈ splitOnChar '\n' l, escClean p = true :=
  escClean_splitOnChar_fuel l.length l (Nat.le_refl _) h

theorem splitBlankAux_ne_nil (skip : Bool) (l : List Char) : splitBlankAux skip l ≠ [] := by
  induction l generalizing skip with
  | nil => simp [splitBlankAux]
  | cons c xs ih =>
    rw [splitBlankAux]
    by_cases h1 : (skip && c = '\n') = true
    · rw [if_pos h1]
      exact ih true
    · rw [if_neg h1]
      by_cases h2 : (c = '\n' && xs.head? = some '\n') = true
      · rw [if_pos h2]
        simp
      · rw [if_neg h2]
        rcases hx : splitBlankAux false xs with _ | ⟨h, t⟩
        · exact absurd hx (ih false)
        · simp

theorem splitBlankAux_cons_shape (skip : Bool) (c : Char) (xs : List Char)
    (h1 : ¬(skip = true ∧ c = '\n')) (h2 : ¬(c = '\n' ∧ xs.head? = some '\n')) :
    ∃ h t, splitBlankAux false xs = h :: t ∧ splitBlankAux skip (c :: xs) = (c :: h) :: t := by
  rcases hx : splitBlankAux false xs with _ | ⟨h, t⟩
  · exact absurd hx (splitBlankAux_ne_nil false xs)
  · refine ⟨h, t, rfl, ?_⟩
    rw [splitBlankAux]
    rw [if_neg (by simpa using h1), if_neg (by simpa using h2), hx]

theorem splitBlankAux_cons_ne (skip : Bool) (c : Char) (xs : List Char) (hc : c ≠ '\n') :
    ∃ h t, splitBlankAux false xs = h :: t ∧ splitBlankAux skip (c :: xs) = (c :: h) :: t :=
  splitBlankAux_cons_shape skip c xs (fun hs => hc hs.2) (fun hs => hc hs.1)

theorem splitBlankAux_append_not_mem (skip : Bool) (a l : List Char)
    (hne : a ≠ []) (ha : '\n' ∉ a) :
    ∃ h t, splitBlankAux false l = h :: t ∧ splitBlankAux skip (a ++ l) = (a ++ h) :: t := by
  induction a generalizing skip with
  | nil => exact absurd rfl hne
  | cons c a' ih =>
    have hc : c ≠ '\n' := fun he => ha (he ▸ List.mem_cons_self c a')
    cases a' with
    | nil =>
      obtain ⟨h, t, hl', hrw⟩ := splitBlankAux_cons_ne skip c l hc
      exact ⟨h, t, hl', by simpa using hrw⟩
    | cons d a'' =>
      obtain ⟨h, t, hl', hrec⟩ := ih false (by simp)
        (fun hm => ha (List.mem_cons_of_mem _ hm))
      obtain ⟨h2, t2, hsplit, hcons⟩ := splitBlankAux_cons_ne skip c ((d :: a'') ++ l) hc
      rw [hrec] at hsplit
      cases hsplit
      exact ⟨h, t, hl', by rw [List.cons_append, hcons]; rfl⟩

theorem escClean_splitBlankAux_fuel :
    ∀ (n : Nat) (skip : Bool) (l : List Char), l.length ≤ n → escClean l = true →
      ∀ p ∈ splitBlankAux skip l, escClean p = true := by
  intro n
  induction n with
  | zero =>
    intro skip l hl _ p hp
    have : l = [] := List.length_eq_zero.mp (Nat.le_zero.mp hl)
    subst this
    simp [splitBlankAux] at hp
    subst hp
    exact escClean_nil
  | succ n ih =>
    intro skip l hl h p hp
    match l with
    | [] =>
      simp [splitBlankAux] at hp
      subst hp
      exact escClean_nil
    | c :: xs =>
      by_cases hb1 : (skip && c = '\n') = true
      · rw [splitBlankAux, if_pos hb1] at hp
        exact ih true xs (by simp at hl; omega) (escClean_tail c xs h) p hp
      · by_cases hb2 : (c = '\n' && xs.head? = some '\n') = true
        · rw [splitBlankAux, if_neg hb1, if_pos hb2] at hp
          rcases List.mem_cons.mp hp with rfl | hp'
          · exact escClean_nil
          · exact ih true xs (by simp at hl; omega) (escClean_tail c xs h) p hp'
        · by_cases h1 : c = '&'
          · subst h1
            rcases escClean_amp_cases xs h with ⟨r, hxs, hr⟩ | ⟨r, hxs, hr⟩ | ⟨r, hxs, hr⟩ <;>
                subst hxs
            · obtain ⟨hh, tt, hsr, hrw⟩ :=
                splitBlankAux_append_not_mem skip ['&', 'a', 'm', 'p', ';'] r (by simp) (by decide)
              rw [show (['&', 'a', 'm', 'p', ';'] ++ r : List Char) =
                '&' :: 'a' :: 'm' :: 'p' :: ';' :: r from rfl] at hrw
              rw [hrw] at hp
              rcases List.mem_cons.mp hp with rfl | hp'
              · rw [show (['&', 'a', 'm', 'p', ';'] ++ hh : List Char) =
                  '&' :: 'a' :: 'm' :: 'p' :: ';' :: hh from rfl, escClean_cons_amp]
                exact ih false r (by simp at hl; omega) hr hh
                  (by rw [hsr]; exact List.mem_cons_self _ _)
              · exact ih false r (by simp at hl; omega) hr p
                  (by rw [hsr]; exact List.mem_cons_of_mem _ hp')
            · obtain ⟨hh, tt, hsr, hrw⟩ :=
                splitBlankAux_append_not_mem skip ['&', 'l', 't', ';'] r (by simp) (by decide)
              rw [show (['&', 'l', 't', ';'] ++ r : List Char) =
                '&' :: 'l' :: 't' :: ';' :: r from rfl] at hrw
              rw [hrw] at hp
              rcases List.mem_cons.mp hp with rfl | hp'
              · rw [show (['&', 'l', 't', ';'] ++ hh : List Char) =
                  '&' :: 'l' :: 't' :: ';' :: hh from rfl, escClean_cons_lt]
                exact ih false r (by simp at hl; omega) hr hh
                  (by rw [hsr]; exact List.mem_cons_self _ _)
              · exact ih false r (by simp at hl; omega) hr p
                  (by rw [hsr]; exact List.mem_cons_of_mem _ hp')
            · obtain ⟨hh, tt, hsr, hrw⟩ :=
                splitBlankAux_append_not_mem skip ['&', 'g', 't', ';'] r (by simp) (by decide)
              rw [show (['&', 'g', 't', ';'] ++ r : List Char) =
                '&' :: 'g' :: 't' :: ';' :: r from rfl] at hrw
              rw [hrw] at hp
              rcases List.mem_cons.mp hp with rfl | hp'
              · rw [show (['&', 'g', 't', ';'] ++ hh : List Char) =
                  '&' :: 'g' :: 't' :: ';' :: hh from rfl, escClean_cons_gt]
                exact ih false r (by simp at hl; omega) hr hh
                  (by rw [hsr]; exact List.mem_cons_self _ _)
              · exact ih false r (by simp at hl; omega) hr p
                  (by rw [hsr]; exact List.mem_cons_of_mem _ hp')
          · obtain ⟨hh, tt, hsx, hrw⟩ := splitBlankAux_cons_shape skip c xs
              (by simpa using hb1) (by simpa using hb2)
            rw [hrw] at hp
            have hxs : escClean xs = true := escClean_tail c xs h
            rcases List.mem_cons.mp hp with rfl | hp'
            · by_cases h2 : c = '<'
              · subst h2; rw [escClean_cons_special '<' _ (Or.inl rfl)] at h; cases h
              · by_cases h3 : c = '>'
                · subst h3; rw [escClean_cons_special '>' _ (Or.inr rfl)] at h; cases h
                · rw [escClean_cons_plain c _ h1 h2 h3]
                  exact ih false xs (by simp at hl; omega) hxs hh
                    (by rw [hsx]; exact List.mem_cons_self _ _)
            · exact ih false xs (by simp at hl; omega) hxs p
                (by rw [hsx]; exact List.mem_cons_of_mem _ hp')

theorem escClean_splitBlank (l : List Char) (h : escClean l = true) :
    ∀ p ∈ splitBlank l, escClean p = true :=
  escClean_splitBlankAux_fuel l.length false l (Nat.le_refl _) h

theorem collapseNL_cons_ne (c : Char) (xs : List Char) (hc : c ≠ '\n') :
    collapseNL (c :: xs) = c :: collapseNL xs := by
  simp [collapseNL, hc]

theorem escClean_collapseNL_fuel :
    ∀ (n : Nat) (l : List Char), l.length ≤ n → escClean l = true →
      escClean (collapseNL l) = true := by
  intro n
  induction n with
  | zero =>
    intro l hl _
    have : l = [] := List.length_eq_zero.mp (Nat.le_zero.mp hl)
    subst this
    exact escClean_nil
  | succ n ih =>
    intro l hl h
    match l with
    | [] => exact escClean_nil
    | c :: xs =>
      by_cases hc : c = '\n'
      · subst hc
        rw [collapseNL]
        by_cases hcond : (('\n' = '\n' : Bool) && (collapseNL xs).head? = some '\n'
            && (collapseNL xs).tail.head? = some '\n') = true
        · rw [if_pos hcond]
          exact ih xs (by simp at hl; omega) (escClean_tail _ _ h)
        · rw [if_neg hcond]
          rw [escClean_cons_plain '\n' _ (by decide) (by decide) (by decide)]
          exact ih xs (by simp at hl; omega) (escClean_tail _ _ h)
      · by_cases h1 : c = '&'
        · subst h1
          rcases escClean_amp_cases xs h with ⟨r, hxs, hr⟩ | ⟨r, hxs, hr⟩ | ⟨r, hxs, hr⟩ <;>
              subst hxs
          · rw [collapseNL_cons_ne '&' _ hc, collapseNL_cons_ne 'a' _ (by decide),
              collapseNL_cons_ne 'm' _ (by decide), collapseNL_cons_ne 'p' _ (by decide),
              collapseNL_cons_ne ';' _ (by decide), escClean_cons_amp]
            exact ih r (by simp at hl; omega) hr
          · rw [collapseNL_cons_ne '&' _ hc, collapseNL_cons_ne 'l' _ (by decide),
              collapseNL_cons_ne 't' _ (by decide),
              collapseNL_cons_ne ';' _ (by decide), escClean_cons_lt]
            exact ih r (by simp at hl; omega) hr
          · rw [collapseNL_cons_ne '&' _ hc, collapseNL_cons_ne 'g' _ (by decide),
              collapseNL_cons_ne 't' _ (by decide),
              collapseNL_cons_ne ';' _ (by decide), escClean_cons_gt]
            exact ih r (by simp at hl; omega) hr
        · by_cases h2 : c = '<'
          · subst h2; rw [escClean_cons_special '<' _ (Or.inl rfl)] at h; cases h
          · by_cases h3 : c = '>'
            · subst h3; rw [escClean_cons_special '>' _ (Or.inr rfl)] at h; cases h
            · rw [collapseNL_cons_ne c _ hc, escClean_cons_plain c _ h1 h2 h3]
              rw [escClean_cons_plain c _ h1 h2 h3] at h
              exact ih xs (by simp at hl; omega) h

theorem escClean_collapseNL (l : List Char) (h : escClean l = true) :
    escClean (collapseNL l) = true :=
  escClean_collapseNL_fuel l.length l (Nat.le_refl _) h

/-! Structure of the formatter outputs. -/

theorem verbalParts_good (src : List Char) :
    ∀ t ∈ verbalParts src, escClean t = true ∧ t ≠ [] := by
  intro t ht
  rw [verbalParts] at ht
  obtain ⟨hmem, hne⟩ := List.mem_filter.mp ht
  obtain ⟨p, hp, rfl⟩ := List.mem_map.mp hmem
  have hclean : escClean (trimL (collapseNL (escL src))) = true :=
    escClean_trimL _ (escClean_collapseNL _ (escClean_escL src))
  refine ⟨escClean_trimL _ (escClean_splitBlank _ hclean p hp), ?_⟩
  intro he
  rw [he] at hne
  cases hne

theorem toVerbalHTML_blocks (src : String) :
    ∃ ts : List (List Char),
      toVerbalHTML src = String.intercalate "\n"
        (ts.map (fun t => String.mk ("<p>".data ++ t ++ "</p>".data))) ∧
      ∀ t ∈ ts, escClean t = true ∧ t ≠ [] := by
  by_cases hs : src = ""
  · subst hs
    refine ⟨["Not provided.".data], by decide, ?_⟩
    intro t ht
    rcases List.mem_singleton.mp ht with rfl
    exact ⟨escClean_of_all_plain _ (by decide), by decide⟩
  · rw [toVerbalHTML, if_neg hs]
    exact ⟨verbalParts src.data, rfl, verbalParts_good src.data⟩

theorem flushP_good (out para : List (List Char))
    (hout : ∃ bs : List Block, out = bs.map Block.render ∧ GoodBlocks bs)
    (hpara : ∀ p ∈ para, escClean p = true) :
    ∃ bs : List Block, flushP out para = bs.map Block.render ∧ GoodBlocks bs := by
  rw [flushP]
  by_cases hp : para.isEmpty
  · rw [if_pos hp]
    exact hout
  · rw [if_neg hp]
    simp only
    by_cases ht : (trimL (collapseWS (joinSp para))).isEmpty
    · rw [if_pos ht]
      exact hout
    · rw [if_neg ht]
      obtain ⟨bs, rfl, hgood⟩ := hout
      refine ⟨bs ++ [Block.para (trimL (collapseWS (joinSp para)))], ?_, ?_⟩
      · simp [Block.render]
      · intro b hb
        rcases List.mem_append.mp hb with hb | hb
        · exact hgood b hb
        · rcases List.mem_singleton.mp hb with rfl
          refine ⟨escClean_trimL _ (escClean_collapseWS _ (escClean_joinSp para hpara)), ?_⟩
        
          intro _ he
          rw [Block.text] at he
          rw [he] at ht
          exact ht rfl

theorem sectionStep_good (out para : List (List Char)) (raw : List Char)
    (hout : ∃ bs : List Block, out = bs.map Block.render ∧ GoodBlocks bs)
    (hpara : ∀ p ∈ para, escClean p = true) (hraw : escClean raw = true) :
    (∃ bs : List Block, (sectionStep (out, para) raw).1 = bs.map Block.render ∧ GoodBlocks bs) ∧
      ∀ p ∈ (sectionStep (out, para) raw).2, escClean p = true := by
  have hline : escClean (trimL raw) = true := escClean_trimL raw hraw
  rw [sectionStep]
  simp only
  by_cases h1 : (trimL raw).isEmpty
  · rw [if_pos h1]
    exact ⟨flushP_good out para hout hpara, by intro p hp; cases hp⟩
  · rw [if_neg h1]
    by_cases h2 : headingTest (trimL raw)
    · rw [if_pos h2]
      refine ⟨?_, by intro p hp; cases hp⟩
      obtain ⟨bs, hrw, hgood⟩ := flushP_good out para hout hpara
      refine ⟨bs ++ [Block.head (dropTrailingColon (trimL raw))], ?_, ?_⟩
      · rw [hrw]
        simp [Block.render, h3Open]
      · intro b hb
        rcases List.mem_append.mp hb with hb | hb
        · exact hgood b hb
        · rcases List.mem_singleton.mp hb with rfl
          exact ⟨escClean_dropTrailingColon _ hline, fun hip => by cases hip⟩
    · rw [if_neg h2]
      by_cases h3 : verbalLabelTest (trimL raw)
      · rw [if_pos h3]
        exact ⟨flushP_good out para hout hpara, by intro p hp; cases hp⟩
      · rw [if_neg h3]
        by_cases h4 : testAnchor writtenAt (trimL raw)
        · rw [if_pos h4]
          exact ⟨flushP_good out para hout hpara, by intro p hp; cases hp⟩
        · rw [if_neg h4]
          refine ⟨hout, ?_⟩
          intro p hp
          rcases List.mem_append.mp hp with hp | hp
          · exact hpara p hp
          · rcases List.mem_singleton.mp hp with rfl
            exact hline

theorem sectionFold_good (lines : List (List Char)) :
    ∀ (out para : List (List Char)),
      (∃ bs : List Block, out = bs.map Block.render ∧ GoodBlocks bs) →
      (∀ p ∈ para, escClean p = true) →
      (∀ ln ∈ lines, escClean ln = true) →
      ∃ bs : List Block,
        flushP (lines.foldl sectionStep (out, para)).1 (lines.foldl sectionStep (out, para)).2 =
          bs.map Block.render ∧ GoodBlocks bs := by
  induction lines with
  | nil =>
    intro out para hout hpara _
    exact flushP_good out para hout hpara
  | cons raw rest ih =>
    intro out para hout hpara hlines
    obtain ⟨hout', hpara'⟩ := sectionStep_good out para raw hout hpara
      (hlines raw (List.mem_cons_self _ _))
    have := ih (sectionStep (out, para) raw).1 (sectionStep (out, para) raw).2 hout' hpara'
      (fun ln hln => hlines ln (List.mem_cons_of_mem _ hln))
    simpa using this

theorem sectionBlocks_good (src : List Char) :
    ∃ bs : List Block, sectionBlocks src = bs.map Block.render ∧ GoodBlocks bs := by
  rw [sectionBlocks]
  refine sectionFold_good (splitOnChar '\n' (escL src)) [] [] ⟨[], rfl, by intro b hb; cases hb⟩
    (by intro p hp; cases hp) ?_
  exact escClean_splitOnChar (escL src) (escClean_escL src)

theorem toSectionedHTML_blocks (src : String) :
    ∃ bs : List Block,
      toSectionedHTML src = String.intercalate "\n" (bs.map (fun b => String.mk b.render)) ∧
      GoodBlocks bs := by
  by_cases hs : src = ""
  · subst hs
    refine ⟨[Block.para "Not provided.".data], by decide, ?_⟩
    intro b hb
    rcases List.mem_singleton.mp hb with rfl
    exact ⟨escClean_of_all_plain _ (by decide), fun _ => by decide⟩
  · rw [toSectionedHTML, if_neg hs]
    obtain ⟨bs, hrw, hgood⟩ := sectionBlocks_good src.data
    refine ⟨bs, ?_, hgood⟩
    rw [hrw]
    rw [List.map_map]
    rfl

/-! Facts about the normalizer: each pass establishes the absence of its
pattern, later passes and trimming keep it absent, and a pass is the
identity when its pattern is absent. -/

theorem hasBold_nil : hasBold [] = false := rfl

theorem hasBold_single (c : Char) : hasBold [c] = false := rfl

theorem hasBold_cons_cons (c d : Char) (xs : List Char) :
    hasBold (c :: d :: xs) = (((c = '*' : Bool) && (d = '*' : Bool)) || hasBold (d :: xs)) := by
  rw [hasBold]

theorem hasBold_tail (c : Char) (xs : List Char) (h : hasBold (c :: xs) = false) :
    hasBold xs = false := by
  cases xs with
  | nil => rfl
  | cons d t =>
    rw [hasBold_cons_cons] at h
    exact (Bool.or_eq_false_iff.mp h).2

theorem hasBold_append_right (a b : List Char) (h : hasBold (a ++ b) = false) :
    hasBold b = false := by
  induction a with
  | nil => exact h
  | cons c a' ih =>
    rw [List.cons_append] at h
    exact ih (hasBold_tail _ _ h)

theorem hasBold_append_left (a b : List Char) (h : hasBold (a ++ b) = false) :
    hasBold a = false := by
  induction a with
  | nil => rfl
  | cons c a' ih =>
    cases a' with
    | nil => rfl
    | cons d a'' =>
      rw [List.cons_append, List.cons_append] at h
      rw [hasBold_cons_cons] at h ⊢
      rw [Bool.or_eq_false_iff] at h ⊢
      refine ⟨h.1, ?_⟩
      have := ih (by rw [List.cons_append]; exact h.2)
      exact this

theorem hasWSNL_nil : hasWSNL [] = false := rfl

theorem hasWSNL_single (c : Char) : hasWSNL [c] = false := rfl

theorem hasWSNL_cons_cons (c d : Char) (xs : List Char) :
    hasWSNL (c :: d :: xs) =
      ((((c = ' ' : Bool) || (c = '\t' : Bool)) && (d = '\n' : Bool)) || hasWSNL (d :: xs)) := by
  rw [hasWSNL]

theorem hasWSNL_tail (c : Char) (xs : List Char) (h : hasWSNL (c :: xs) = false) :
    hasWSNL xs = false := by
  cases xs with
  | nil => rfl
  | cons d t =>
    rw [hasWSNL_cons_cons] at h
    exact (Bool.or_eq_false_iff.mp h).2

theorem hasWSNL_append_right (a b : List Char) (h : hasWSNL (a ++ b) = false) :
    hasWSNL b = false := by
  induction a with
  | nil => exact h
  | cons c a' ih =>
    rw [List.cons_append] at h
    exact ih (hasWSNL_tail _ _ h)

theorem hasWSNL_append_left (a b : List Char) (h : hasWSNL (a ++ b) = false) :
    hasWSNL a = false := by
  induction a with
  | nil => rfl
  | cons c a' ih =>
    cases a' with
    | nil => rfl
    | cons d a'' =>
      rw [List.cons_append, List.cons_append] at h
      rw [hasWSNL_cons_cons] at h ⊢
      rw [Bool.or_eq_false_iff] at h ⊢
      exact ⟨h.1, ih (by rw [List.cons_append]; exact h.2)⟩

theorem hasNNN_nil : hasNNN [] = false := rfl

theorem hasNNN_single (c : Char) : hasNNN [c] = false := rfl

theorem hasNNN_pair (c d : Char) : hasNNN [c, d] = false := rfl

theorem hasNNN_cons_cons (c d e : Char) (xs : List Char) :
    hasNNN (c :: d :: e :: xs) =
      (((c = '\n' : Bool) && (d = '\n' : Bool) && (e = '\n' : Bool)) || hasNNN (d :: e :: xs)) := by
  rw [hasNNN]

theorem hasNNN_tail (c : Char) (xs : List Char) (h : hasNNN (c :: xs) = false) :
    hasNNN xs = false := by
  match xs with
  | [] => rfl
  | [d] => rfl
  | d :: e :: t =>
    rw [hasNNN_cons_cons] at h
    exact (Bool.or_eq_false_iff.mp h).2

theorem hasNNN_append_right (a b : List Char) (h : hasNNN (a ++ b) = false) :
    hasNNN b = false := by
  induction a with
  | nil => exact h
  | cons c a' ih =>
    rw [List.cons_append] at h
    exact ih (hasNNN_tail _ _ h)

theorem hasNNN_append_left (a b : List Char) (h : hasNNN (a ++ b) = false) :
    hasNNN a = false := by
  induction a with
  | nil => rfl
  | cons c a' ih =>
    match a', ih with
    | [], _ => rfl
    | [d], _ => rfl
    | d :: e :: a'', ih =>
      rw [List.cons_append, List.cons_append, List.cons_append] at h
      rw [hasNNN_cons_cons] at h ⊢
      rw [Bool.or_eq_false_iff] at h ⊢
      exact ⟨h.1, ih (by rw [List.cons_append, List.cons_append]; exact h.2)⟩

theorem trimL_decomp (l : List Char) : ∃ a w, l = a ++ (trimL l ++ w) := by
  obtain ⟨w, hw, _⟩ := trimR_decomp (l.dropWhile isJsWS)
  refine ⟨l.takeWhile isJsWS, w, ?_⟩
  conv_lhs => rw [← List.takeWhile_append_dropWhile isJsWS l]
  rw [hw]
  rfl

theorem hasBold_trimL (l : List Char) (h : hasBold l = false) : hasBold (trimL l) = false := by
  obtain ⟨a, w, hd⟩ := trimL_decomp l
  rw [hd] at h
  exact hasBold_append_left _ _ (hasBold_append_right _ _ h)

theorem hasWSNL_trimL (l : List Char) (h : hasWSNL l = false) : hasWSNL (trimL l) = false := by
  obtain ⟨a, w, hd⟩ := trimL_decomp l
  rw [hd] at h
  exact hasWSNL_append_left _ _ (hasWSNL_append_right _ _ h)

theorem hasNNN_trimL (l : List Char) (h : hasNNN l = false) : hasNNN (trimL l) = false := by
  obtain ⟨a, w, hd⟩ := trimL_decomp l
  rw [hd] at h
  exact hasNNN_append_left _ _ (hasNNN_append_right _ _ h)

theorem replAll_del_sublist (c : Char) (l : List Char) : (replAll c [] l).Sublist l := by
  induction l with
  | nil => exact List.Sublist.refl []
  | cons x xs ih =>
    rw [replAll]
    by_cases hx : x = c
    · rw [if_pos hx]
      exact List.Sublist.trans (by simpa using ih) (List.Sublist.cons x (List.Sublist.refl xs))
    · rw [if_neg hx]
      simpa using List.Sublist.cons₂ x ih

theorem stripBold_sublist (l : List Char) : (stripBold l).Sublist l := by
  match l with
  | [] => exact List.Sublist.refl []
  | [c] => exact List.Sublist.refl [c]
  | c :: d :: xs =>
    rw [stripBold]
    by_cases hcd : ((c = '*' : Bool) && (d = '*' : Bool)) = true
    · rw [if_pos hcd]
      exact List.Sublist.cons c (List.Sublist.cons d (stripBold_sublist xs))
    · rw [if_neg hcd]
      exact List.Sublist.cons₂ c (stripBold_sublist (d :: xs))

theorem stripWSBeforeNL_sublist (l : List Char) : (stripWSBeforeNL l).Sublist l := by
  induction l with
  | nil => exact List.Sublist.refl []
  | cons c xs ih =>
    rw [stripWSBeforeNL]
    by_cases hc : (((c = ' ' : Bool) || (c = '\t' : Bool)) &&
        (stripWSBeforeNL xs).head? = some '\n') = true
    · rw [if_pos hc]
      exact List.Sublist.cons c ih
    · rw [if_neg hc]
      exact List.Sublist.cons₂ c ih

theorem collapseNL_sublist (l : List Char) : (collapseNL l).Sublist l := by
  induction l with
  | nil => exact List.Sublist.refl []
  | cons c xs ih =>
    rw [collapseNL]
    by_cases hc : ((c = '\n' : Bool) && (collapseNL xs).head? = some '\n' &&
        (collapseNL xs).tail.head? = some '\n') = true
    · rw [if_pos hc]
      exact List.Sublist.cons c ih
    · rw [if_neg hc]
      exact List.Sublist.cons₂ c ih

theorem trimL_sublist (l : List Char) : (trimL l).Sublist l := by
  obtain ⟨a, w, hd⟩ := trimL_decomp l
  conv_rhs => rw [hd]
  exact List.Sublist.trans (List.sublist_append_left _ w) (List.sublist_append_right a _)

theorem cr_not_mem_removeCR (l : List Char) : '\r' ∉ removeCR l := by
  induction l with
  | nil => simp [removeCR, replAll]
  | cons x xs ih =>
    rw [removeCR, replAll]
    by_cases hx : x = '\r'
    · rw [if_pos hx]
      simpa [removeCR] using ih
    · rw [if_neg hx]
      intro hm
      rcases List.mem_append.mp hm with hm | hm
      · rcases List.mem_singleton.mp hm with rfl
        exact hx rfl
      · exact ih hm

theorem removeCR_id (l : List Char) (h : '\r' ∉ l) : removeCR l = l := by
  induction l with
  | nil => rfl
  | cons x xs ih =>
    rw [removeCR, replAll]
    rw [if_neg (fun hx => h (by rw [← hx]; exact List.mem_cons_self x xs))]
    rw [show replAll '\r' [] xs = removeCR xs from rfl,
      ih (fun hm => h (List.mem_cons_of_mem x hm))]
    rfl

theorem cr_not_mem_normalizeL (l : List Char) : '\r' ∉ normalizeL l := by
  intro hm
  have h1 : (normalizeL l).Sublist (removeCR l) := by
    rw [normalizeL]
    exact List.Sublist.trans (trimL_sublist _)
      (List.Sublist.trans (collapseNL_sublist _)
        (List.Sublist.trans (stripWSBeforeNL_sublist _) (stripBold_sublist _)))
  exact cr_not_mem_removeCR l (h1.subset hm)

theorem hasBold_cons_of (c : Char) (R : List Char)
    (hc : ¬(c = '*' ∧ R.head? = some '*')) (hR : hasBold R = false) :
    hasBold (c :: R) = false := by
  cases R with
  | nil => rfl
  | cons e R' =>
    rw [hasBold_cons_cons, Bool.or_eq_false_iff]
    refine ⟨?_, hR⟩
    by_cases h1 : c = '*'
    · by_cases h2 : e = '*'
      · exact absurd ⟨h1, by rw [h2]; rfl⟩ hc
      · simp [h2]
    · simp [h1]

theorem hasWSNL_cons_of (c : Char) (R : List Char)
    (hc : ¬((c = ' ' ∨ c = '\t') ∧ R.head? = some '\n')) (hR : hasWSNL R = false) :
    hasWSNL (c :: R) = false := by
  cases R with
  | nil => rfl
  | cons e R' =>
    rw [hasWSNL_cons_cons, Bool.or_eq_false_iff]
    refine ⟨?_, hR⟩
    by_cases h2 : e = '\n'
    · by_cases h1 : c = ' '
      · exact absurd ⟨Or.inl h1, by rw [h2]; rfl⟩ hc
      · by_cases h1' : c = '\t'
        · exact absurd ⟨Or.inr h1', by rw [h2]; rfl⟩ hc
        · simp [h1, h1']
    · simp [h2]

theorem hasNNN_cons_of (c : Char) (R : List Char)
    (hc : ¬(c = '\n' ∧ R.head? = some '\n' ∧ R.tail.head? = some '\n'))
    (hR : hasNNN R = false) : hasNNN (c :: R) = false := by
  match R with
  | [] => rfl
  | [e] => rfl
  | e :: f :: R' =>
    rw [hasNNN_cons_cons, Bool.or_eq_false_iff]
    refine ⟨?_, hR⟩
    by_cases h1 : c = '\n'
    · by_cases h2 : e = '\n'
      · by_cases h3 : f = '\n'
        · exact absurd ⟨h1, by rw [h2]; rfl, by rw [h3]; rfl⟩ hc
        · simp [h3]
      · simp [h2]
    · simp [h1]

theorem stripBold_cons_ne (d : Char) (xs : List Char) (hd : d ≠ '*') :
    stripBold (d :: xs) = d :: stripBold xs := by
  cases xs with
  | nil => rfl
  | cons e xs' =>
    rw [stripBold]
    rw [if_neg (by simp [hd])]

theorem hasBold_stripBold_fuel :
    ∀ (n : Nat) (l : List Char), l.length ≤ n → hasBold (stripBold l) = false := by
  intro n
  induction n with
  | zero =>
    intro l hl
    have : l = [] := List.length_eq_zero.mp (Nat.le_zero.mp hl)
    subst this
    rfl
  | succ n ih =>
    intro l hl
    match l with
    | [] => rfl
    | [c] => rfl
    | c :: d :: xs =>
      rw [stripBold]
      by_cases hcd : ((c = '*' : Bool) && (d = '*' : Bool)) = true
      · rw [if_pos hcd]
        exact ih xs (by simp at hl; omega)
      · rw [if_neg hcd]
        have hR : hasBold (stripBold (d :: xs)) = false := ih (d :: xs) (by simp at hl ⊢; omega)
        refine hasBold_cons_of c _ ?_ hR
        rintro ⟨rfl, hhead⟩
        have hd : d ≠ '*' := by
          intro hd
          exact hcd (by simp [hd])
        rw [stripBold_cons_ne d xs hd] at hhead
        simp only [List.head?_cons] at hhead
        exact hd (Option.some.inj hhead)

theorem hasBold_stripBold (l : List Char) : hasBold (stripBold l) = false :=
  hasBold_stripBold_fuel l.length l (Nat.le_refl _)

theorem stripBold_id_fuel :
    ∀ (n : Nat) (l : List Char), l.length ≤ n → hasBold l = false → stripBold l = l := by
  intro n
  induction n with
  | zero =>
    intro l hl _
    have : l = [] := List.length_eq_zero.mp (Nat.le_zero.mp hl)
    subst this
    rfl
  | succ n ih =>
    intro l hl h
    match l with
    | [] => rfl
    | [c] => rfl
    | c :: d :: xs =>
      rw [hasBold_cons_cons, Bool.or_eq_false_iff] at h
      rw [stripBold, if_neg (by rw [h.1]; simp)]
      rw [ih (d :: xs) (by simp at hl ⊢; omega) h.2]

theorem stripBold_id (l : List Char) (h : hasBold l = false) : stripBold l = l :=
  stripBold_id_fuel l.length l (Nat.le_refl _) h

theorem stripWSBeforeNL_head (l : List Char) :
    (stripWSBeforeNL l).head? = l.head? ∨ (stripWSBeforeNL l).head? = some '\n' := by
  cases l with
  | nil => exact Or.inl rfl
  | cons c xs =>
    rw [stripWSBeforeNL]
    by_cases hc : (((c = ' ' : Bool) || (c = '\t' : Bool)) &&
        (stripWSBeforeNL xs).head? = some '\n') = true
    · rw [if_pos hc]
      exact Or.inr (by
        have := (Bool.and_eq_true_iff.mp hc).2
        exact of_decide_eq_true this)
    · rw [if_neg hc]
      exact Or.inl rfl

theorem hasWSNL_stripWSBeforeNL (l : List Char) : hasWSNL (stripWSBeforeNL l) = false := by
  induction l with
  | nil => rfl
  | cons c xs ih =>
    rw [stripWSBeforeNL]
    by_cases hc : (((c = ' ' : Bool) || (c = '\t' : Bool)) &&
        (stripWSBeforeNL xs).head? = some '\n') = true
    · rw [if_pos hc]
      exact ih
    · rw [if_neg hc]
      refine hasWSNL_cons_of c _ ?_ ih
      rintro ⟨hcsp, hhead⟩
      refine hc ?_
      rw [Bool.and_eq_true_iff]
      constructor
      · rcases hcsp with rfl | rfl <;> simp
      · exact decide_eq_true hhead

theorem stripWSBeforeNL_id (l : List Char) (h : hasWSNL l = false) :
    stripWSBeforeNL l = l := by
  induction l with
  | nil => rfl
  | cons c xs ih =>
    have hxs : stripWSBeforeNL xs = xs := ih (hasWSNL_tail c xs h)
    rw [stripWSBeforeNL, hxs]
    rw [if_neg ?_]
    intro hcond
    obtain ⟨hcsp, hhead⟩ := Bool.and_eq_true_iff.mp hcond
    match xs, hhead with
    | d :: xs', hhead =>
      have hd : d = '\n' := by
        have := of_decide_eq_true hhead
        simpa using this
      subst hd
      rw [hasWSNL_cons_cons] at h
      simp only [Bool.or_eq_true] at hcsp
      rcases hcsp with hc | hc <;> simp [of_decide_eq_true hc] at h

theorem hasBold_stripWSBeforeNL (l : List Char) (h : hasBold l = false) :
    hasBold (stripWSBeforeNL l) = false := by
  induction l with
  | nil => rfl
  | cons c xs ih =>
    have ihx : hasBold (stripWSBeforeNL xs) = false := ih (hasBold_tail c xs h)
    rw [stripWSBeforeNL]
    by_cases hc : (((c = ' ' : Bool) || (c = '\t' : Bool)) &&
        (stripWSBeforeNL xs).head? = some '\n') = true
    · rw [if_pos hc]
      exact ihx
    · rw [if_neg hc]
      refine hasBold_cons_of c _ ?_ ihx
      rintro ⟨rfl, hhead⟩
      rcases stripWSBeforeNL_head xs with hh | hh
    
      · rw [hh] at hhead
        match xs, hhead with
        | d :: xs', hhead =>
          have hd : d = '*' := by simpa using hhead
          subst hd
          rw [hasBold_cons_cons] at h
          simp at h
      · rw [hh] at hhead
        cases hhead

theorem collapseNL_head (l : List Char) :
    (collapseNL l).head? = l.head? ∨
      ((collapseNL l).head? = some '\n' ∧ l.head? = some '\n') := by
  cases l with
  | nil => exact Or.inl rfl
  | cons c xs =>
    rw [collapseNL]
    by_cases hc : ((c = '\n' : Bool) && (collapseNL xs).head? = some '\n' &&
        (collapseNL xs).tail.head? = some '\n') = true
    · rw [if_pos hc]
      obtain ⟨h1, h2⟩ := Bool.and_eq_true_iff.mp hc
      obtain ⟨h1a, h1b⟩ := Bool.and_eq_true_iff.mp h1
      refine Or.inr ⟨of_decide_eq_true h1b, ?_⟩
      rw [of_decide_eq_true h1a]
      rfl
    · rw [if_neg hc]
      exact Or.inl rfl

theorem hasNNN_collapseNL (l : List Char) : hasNNN (collapseNL l) = false := by
  induction l with
  | nil => rfl
  | cons c xs ih =>
    rw [collapseNL]
    by_cases hc : ((c = '\n' : Bool) && (collapseNL xs).head? = some '\n' &&
        (collapseNL xs).tail.head? = some '\n') = true
    · rw [if_pos hc]
      exact ih
    · rw [if_neg hc]
      refine hasNNN_cons_of c _ ?_ ih
      rintro ⟨rfl, hh, ht⟩
      exact hc (by rw [Bool.and_eq_true_iff, Bool.and_eq_true_iff]
                   exact ⟨⟨by simp, decide_eq_true hh⟩, decide_eq_true ht⟩)

theorem collapseNL_id (l : List Char) (h : hasNNN l = false) : collapseNL l = l := by
  induction l with
  | nil => rfl
  | cons c xs ih =>
    have hxs : collapseNL xs = xs := ih (hasNNN_tail c xs h)
    rw [collapseNL, hxs]
    rw [if_neg ?_]
    intro hcond
    obtain ⟨h1, h2⟩ := Bool.and_eq_true_iff.mp hcond
    obtain ⟨h1a, h1b⟩ := Bool.and_eq_true_iff.mp h1
    have hc : c = '\n' := of_decide_eq_true h1a
    match xs, of_decide_eq_true h1b, h2 with
    | d :: xs', hd, h2 =>
      have hd' : d = '\n' := by simpa using hd
      match xs', h2 with
      | e :: xs'', h2 =>
        have he : e = '\n' := by
          have := of_decide_eq_true h2
          simpa using this
        subst hc
        subst hd'
        subst he
        rw [hasNNN_cons_cons] at h
        simp at h

theorem hasBold_collapseNL (l : List Char) (h : hasBold l = false) :
    hasBold (collapseNL l) = false := by
  induction l with
  | nil => rfl
  | cons c xs ih =>
    have ihx : hasBold (collapseNL xs) = false := ih (hasBold_tail c xs h)
    rw [collapseNL]
    by_cases hc : ((c = '\n' : Bool) && (collapseNL xs).head? = some '\n' &&
        (collapseNL xs).tail.head? = some '\n') = true
    · rw [if_pos hc]
      exact ihx
    · rw [if_neg hc]
      refine hasBold_cons_of c _ ?_ ihx
      rintro ⟨rfl, hhead⟩
      rcases collapseNL_head xs with hh | ⟨hh, _⟩
      · rw [hh] at hhead
        match xs, hhead with
        | d :: xs', hhead =>
          have hd : d = '*' := by simpa using hhead
          subst hd
          rw [hasBold_cons_cons] at h
          simp at h
      · rw [hh] at hhead
        cases hhead

theorem hasWSNL_collapseNL (l : List Char) (h : hasWSNL l = false) :
    hasWSNL (collapseNL l) = false := by
  induction l with
  | nil => rfl
  | cons c xs ih =>
    have ihx : hasWSNL (collapseNL xs) = false := ih (hasWSNL_tail c xs h)
    rw [collapseNL]
    by_cases hc : ((c = '\n' : Bool) && (collapseNL xs).head? = some '\n' &&
        (collapseNL xs).tail.head? = some '\n') = true
    · rw [if_pos hc]
      exact ihx
    · rw [if_neg hc]
      refine hasWSNL_cons_of c _ ?_ ihx
      rintro ⟨hcsp, hhead⟩
      have hxsh : xs.head? = some '\n' := by
        rcases collapseNL_head xs with hh | ⟨_, hh⟩
        · rw [← hh]
          exact hhead
        · exact hh
      match xs, hxsh with
      | d :: xs', hxsh =>
        have hd : d = '\n' := by simpa using hxsh
        subst hd
        rw [hasWSNL_cons_cons] at h
        rcases hcsp with rfl | rfl <;> simp at h

theorem dropWhile_head_not (p : Char → Bool) (l : List Char) (c : Char)
    (h : (l.dropWhile p).head? = some c) : p c = false := by
  induction l with
  | nil => cases h
  | cons x xs ih =>
    by_cases hx : p x
    · rw [List.dropWhile_cons_of_pos hx] at h
      exact ih h
    · rw [List.dropWhile_cons_of_neg hx] at h
      simp only [List.head?_cons] at h
      cases h
      exact Bool.eq_false_iff.mpr hx

theorem dropWhile_idem (p : Char → Bool) (l : List Char) :
    (l.dropWhile p).dropWhile p = l.dropWhile p := by
  cases hx : l.dropWhile p with
  | nil => rfl
  | cons c t =>
    have : p c = false := dropWhile_head_not p l c (by rw [hx]; rfl)
    rw [List.dropWhile_cons_of_neg (by rw [this]; simp)]

theorem trimL_idem (l : List Char) : trimL (trimL l) = trimL l := by
  have hTrev : (trimL l).reverse = (l.dropWhile isJsWS).reverse.dropWhile isJsWS := by
    rw [trimL, List.reverse_reverse]
  have step1 : (trimL l).dropWhile isJsWS = trimL l := by
    cases hT : trimL l with
    | nil => rfl
    | cons c t =>
      obtain ⟨w, hw, _⟩ := trimR_decomp (l.dropWhile isJsWS)
      have hmT : l.dropWhile isJsWS = trimL l ++ w := hw
      have hhead : (l.dropWhile isJsWS).head? = some c := by
        rw [hmT, hT]
        rfl
      have : isJsWS c = false := dropWhile_head_not isJsWS l c hhead
      exact List.dropWhile_cons_of_neg (by simp [this])
  rw [trimL, step1, hTrev, dropWhile_idem, ← hTrev, List.reverse_reverse]

/-! The normalizer image is exactly characterised and normalize is
idempotent. -/

theorem hasBold_normalizeL (l : List Char) : hasBold (normalizeL l) = false := by
  rw [normalizeL]
  exact hasBold_trimL _ (hasBold_collapseNL _ (hasBold_stripWSBeforeNL _ (hasBold_stripBold _)))

theorem hasWSNL_normalizeL (l : List Char) : hasWSNL (normalizeL l) = false := by
  rw [normalizeL]
  exact hasWSNL_trimL _ (hasWSNL_collapseNL _ (hasWSNL_stripWSBeforeNL _))

theorem hasNNN_normalizeL (l : List Char) : hasNNN (normalizeL l) = false := by
  rw [normalizeL]
  exact hasNNN_trimL _ (hasNNN_collapseNL _)

theorem trimL_normalizeL (l : List Char) : trimL (normalizeL l) = normalizeL l := by
  rw [normalizeL]
  exact trimL_idem _

theorem normalizeL_idem (l : List Char) : normalizeL (normalizeL l) = normalizeL l := by
  conv_lhs => rw [normalizeL]
  rw [removeCR_id _ (cr_not_mem_normalizeL l)]
  rw [stripBold_id _ (hasBold_normalizeL l)]
  rw [stripWSBeforeNL_id _ (hasWSNL_normalizeL l)]
  rw [collapseNL_id _ (hasNNN_normalizeL l)]
  exact trimL_normalizeL l

/-! The index-free first-match search agrees with exhaustive search over
all indices, and the splitter agrees with its specification reading. -/

theorem specFirstMatch_nil (m : List Char → Option (List Char)) :
    specFirstMatch m [] = if (m []).isSome then some 0 else none := by
  rw [specFirstMatch]
  show List.find? _ [0] = _
  rw [List.find?_cons]
  cases h : (m []).isSome <;> simp [h]

theorem specFirstMatch_cons (m : List Char → Option (List Char)) (c : Char) (xs : List Char) :
    specFirstMatch m (c :: xs) =
      if (m (c :: xs)).isSome then some 0 else (specFirstMatch m xs).map Nat.succ := by
  rw [specFirstMatch, specFirstMatch]
  have h1 : List.range ((c :: xs).length + 1) = 0 :: (List.range (xs.length + 1)).map Nat.succ := by
    rw [show (c :: xs).length + 1 = (xs.length + 1) + 1 from by simp]
    exact List.range_succ_eq_map (xs.length + 1)
  rw [h1, List.find?_cons]
  cases h : (m ((c :: xs).drop 0)).isSome with
  | true =>
    rw [if_pos (by simpa using h)]
  | false =>
    rw [if_neg (by simpa using h)]
    rw [List.find?_map]
    rfl

theorem jsSearchFirst_none (m : List Char → Option (List Char)) (l : List Char)
    (h : jsSearchFirst m l = none) : specFirstMatch m l = none := by
  induction l with
  | nil =>
    rw [jsSearchFirst] at h
    rw [specFirstMatch_nil]
    cases hm : m [] with
    | some r => rw [hm] at h; cases h
    | none => simp [hm]
  | cons c xs ih =>
    rw [jsSearchFirst] at h
    rw [specFirstMatch_cons]
    cases hm : m (c :: xs) with
    | some r => rw [hm] at h; cases h
    | none =>
      rw [hm] at h
      rw [if_neg (by simp [hm])]
      cases hs : jsSearchFirst m xs with
      | some pr => rw [hs] at h; cases h
      | none => rw [ih hs]; rfl

theorem jsSearchFirst_some (m : List Char → Option (List Char)) (l pre rest : List Char)
    (h : jsSearchFirst m l = some (pre, rest)) :
    ∃ i, specFirstMatch m l = some i ∧ pre = l.take i ∧ m (l.drop i) = some rest := by
  induction l generalizing pre rest with
  | nil =>
    rw [jsSearchFirst] at h
    cases hm : m [] with
    | some r =>
      rw [hm] at h
      cases h
      exact ⟨0, by rw [specFirstMatch_nil]; simp [hm], rfl, hm⟩
    | none => rw [hm] at h; cases h
  | cons c xs ih =>
    rw [jsSearchFirst] at h
    cases hm : m (c :: xs) with
    | some r =>
      rw [hm] at h
      cases h
      exact ⟨0, by rw [specFirstMatch_cons]; simp [hm], rfl, hm⟩
    | none =>
      rw [hm] at h
      cases hs : jsSearchFirst m xs with
      | some pr =>
        rw [hs] at h
        cases h
        obtain ⟨i, hspec, hpre, hmi⟩ := ih pr.1 pr.2 (by rw [hs])
        refine ⟨i + 1, ?_, ?_, ?_⟩
        · rw [specFirstMatch_cons, if_neg (by simp [hm]), hspec]
          rfl
        · rw [show (c :: xs).take (i + 1) = c :: xs.take i from rfl, ← hpre]
        · rw [show (c :: xs).drop (i + 1) = xs.drop i from rfl]
          exact hmi
      | none => rw [hs] at h; cases h

/-- Claim C4: for every text blob, on the normalized text the splitter
behaves exactly as specified: with a WRITTEN anchor present, everything
before its first occurrence, stripped of any VERBAL label, becomes
verbal and everything from the anchor onward minus the anchor text
becomes written (WRITTEN anchor priority); with only a VERBAL anchor,
the whole text minus the label becomes verbal; otherwise everything
becomes written. -/
theorem claim4_splitter_matches_spec (blob : List Char) :
    splitCombinedBlob blob = splitCombinedBlobSpec blob := by
  rw [splitCombinedBlob, splitCombinedBlobSpec]
  cases hjs : jsSearchFirst writtenAt (normalizeL blob) with
  | some pr =>
    obtain ⟨i, hspec, hpre, hm⟩ := jsSearchFirst_some writtenAt _ pr.1 pr.2 (by rw [hjs])
    rw [hspec]
    simp [hm, hpre]
  | none =>
    rw [jsSearchFirst_none writtenAt _ hjs]
    cases hjv : jsSearchFirst verbalAt (normalizeL blob) with
    | some pv =>
      obtain ⟨i, hspec, _, _⟩ := jsSearchFirst_some verbalAt _ pv.1 pv.2 (by rw [hjv])
      rw [hspec]
    | none =>
      rw [jsSearchFirst_none verbalAt _ hjv]

/-! Facts about the extraction stages of pickRfds. -/

theorem afterCombined_of_not_blank (json : JsonVal)
    (h : emptyOrBlank (verbal0 json) = .ok false) :
    afterCombined json = .ok (verbal0 json, written0 json) := by
  rw [afterCombined, h]
  rfl

theorem jsString_jsOr_str (s : String) : jsString (jsOr (.str s) (.str "")) = s := by
  rw [jsOr]
  by_cases hs : truthy (JsonVal.str s) = true
  · rw [if_pos hs]
    rfl
  · rw [if_neg hs]
    rw [truthy] at hs
    by_cases he : s = ""
    · rw [he]
      rfl
    · rw [if_neg he] at hs
      exact absurd rfl hs

/-! Behaviour of the formatters on all-whitespace input. -/

theorem escChar_ws (c : Char) (h : isJsWS c = true) : escChar c = [c] := by
  obtain ⟨h1, h2, h3⟩ := isJsWS_ne_special c h
  simp [escChar, h1, h2, h3]

theorem escL_all_ws (l : List Char) (h : ∀ c ∈ l, isJsWS c = true) : escL l = l := by
  induction l with
  | nil => rfl
  | cons c xs ih =>
    rw [escL_cons, escChar_ws c (h c (List.mem_cons_self _ _))]
    rw [ih (fun d hd => h d (List.mem_cons_of_mem c hd))]
    rfl

theorem trimL_all_ws (l : List Char) (h : ∀ c ∈ l, isJsWS c = true) : trimL l = [] := by
  rw [trimL, List.dropWhile_eq_nil_iff.mpr h]
  rfl

theorem splitOnChar_mem_subset (sep : Char) (l : List Char) :
    ∀ p ∈ splitOnChar sep l, ∀ c ∈ p, c ∈ l := by
  induction l with
  | nil =>
    intro p hp c hc
    simp [splitOnChar] at hp
    subst hp
    cases hc
  | cons x xs ih =>
    intro p hp c hc
    by_cases hx : x = sep
    · subst hx
      rw [splitOnChar_cons_sep] at hp
      rcases List.mem_cons.mp hp with rfl | hp'
      · cases hc
      · exact List.mem_cons_of_mem x (ih p hp' c hc)
    · obtain ⟨hh, tt, hsx, hrw⟩ := splitOnChar_cons_ne sep x xs hx
      rw [hrw] at hp
      rcases List.mem_cons.mp hp with rfl | hp'
      · rcases List.mem_cons.mp hc with rfl | hc'
        · exact List.mem_cons_self c xs
        · exact List.mem_cons_of_mem x
            (ih hh (by rw [hsx]; exact List.mem_cons_self _ _) c hc')
      · exact List.mem_cons_of_mem x
          (ih p (by rw [hsx]; exact List.mem_cons_of_mem _ hp') c hc)

theorem flushP_nil_nil : flushP [] [] = [] := rfl

theorem sectionFold_all_blank (lines : List (List Char))
    (h : ∀ ln ∈ lines, trimL ln = []) :
    lines.foldl sectionStep ([], []) = ([], []) := by
  induction lines with
  | nil => rfl
  | cons raw rest ih =>
    have hstep : sectionStep ([], []) raw = ([], []) := by
      rw [sectionStep]
      rw [h raw (List.mem_cons_self _ _)]
      rfl
    rw [List.foldl_cons, hstep]
    exact ih (fun ln hln => h ln (List.mem_cons_of_mem _ hln))

theorem toSectionedHTML_all_ws (s : String) (hne : s ≠ "")
    (hws : ∀ c ∈ s.data, isJsWS c = true) : toSectionedHTML s = "" := by
  rw [toSectionedHTML, if_neg hne]
  have hesc : escL s.data = s.data := escL_all_ws s.data hws
  have hblocks : sectionBlocks s.data = [] := by
    rw [sectionBlocks, hesc]
    rw [sectionFold_all_blank _ ?_]
    · exact flushP_nil_nil
    · intro ln hln
      exact trimL_all_ws ln (fun c hc => hws c (splitOnChar_mem_subset '\n' s.data ln hln c hc))
  rw [hblocks]
  rfl

theorem toVerbalHTML_all_ws (s : String) (hne : s ≠ "")
    (hws : ∀ c ∈ s.data, isJsWS c = true) : toVerbalHTML s = "" := by
  rw [toVerbalHTML, if_neg hne]
  have hesc : escL s.data = s.data := escL_all_ws s.data hws
  have htrim : trimL (collapseNL (escL s.data)) = [] := by
    rw [hesc]
    exact trimL_all_ws _ (fun c hc => hws c ((collapseNL_sublist s.data).subset hc))
  have hparts : verbalParts s.data = [] := by
    rw [verbalParts, htrim]
    rfl
  rw [hparts]
  rfl

theorem pickRfds_ok_shape (json : JsonVal) (v w : String) (h : pickRfds json = .ok (v, w)) :
    ∃ x y : String, v = normalizeText x ∧ w = normalizeText y := by
  rw [pickRfds] at h
  cases hac : afterCombined json with
  | error e =>
    rw [hac] at h
    exact Except.noConfusion h
  | ok vw =>
    rw [hac] at h
    simp only [bind, Except.bind] at h
    cases heb : emptyOrBlank vw.2 with
    | error e =>
      rw [heb] at h
      exact Except.noConfusion h
    | ok eb2 =>
      rw [heb] at h
      injection h with h2
      injection h2 with h3 h4
      exact ⟨_, _, h3.symm, h4.symm⟩

theorem normalizeText_props (x : String) :
    normalizeText (normalizeText x) = normalizeText x ∧
    '\r' ∉ (normalizeText x).data ∧
    hasBold (normalizeText x).data = false ∧
    hasWSNL (normalizeText x).data = false ∧
    hasNNN (normalizeText x).data = false ∧
    trimL (normalizeText x).data = (normalizeText x).data := by
  have hd : (normalizeText x).data = normalizeL x.data := rfl
  refine ⟨?_, ?_, ?_, ?_, ?_, ?_⟩
  · show (⟨normalizeL (normalizeText x).data⟩ : String) = normalizeText x
    rw [hd]
    exact congrArg String.mk (normalizeL_idem x.data)
  · rw [hd]
    exact cr_not_mem_normalizeL x.data
  · rw [hd]
    exact hasBold_normalizeL x.data
  · rw [hd]
    exact hasWSNL_normalizeL x.data
  · rw [hd]
    exact hasNNN_normalizeL x.data
  · rw [hd]
    exact trimL_normalizeL x.data

/-! The claims. -/

/-- Claim C1: for every input string, the output of the written formatter
toSectionedHTML is a newline-join of paragraph and heading blocks, and
the output of the verbal formatter toVerbalHTML a newline-join of
paragraph blocks, whose enclosed texts are escape-clean: they hold no raw
angle bracket and every ampersand only as part of the entities amp, lt,
gt; the only unescaped tags are the paragraph and heading elements the
formatters add themselves. -/
theorem claim1_output_escaped (src : String) :
    (∃ bs : List Block,
      toSectionedHTML src = String.intercalate "\n" (bs.map (fun b => String.mk b.render)) ∧
      ∀ b ∈ bs, escClean b.text = true) ∧
    (∃ ts : List (List Char),
      toVerbalHTML src = String.intercalate "\n"
        (ts.map (fun t => String.mk ("<p>".data ++ t ++ "</p>".data))) ∧
      ∀ t ∈ ts, escClean t = true) := by
  constructor
  · obtain ⟨bs, hb, hg⟩ := toSectionedHTML_blocks src
    exact ⟨bs, hb, fun b hb' => (hg b hb').1⟩
  · obtain ⟨ts, ht, hg⟩ := toVerbalHTML_blocks src
    exact ⟨ts, ht, fun t ht' => (hg t ht').1⟩

/-- Claim C10: for every input string, neither formatter ever emits an
empty paragraph element: in the block decompositions of both outputs
every paragraph text is non-empty. -/
theorem claim10_no_empty_paragraphs (src : String) :
    (∃ bs : List Block,
      toSectionedHTML src = String.intercalate "\n" (bs.map (fun b => String.mk b.render)) ∧
      ∀ b ∈ bs, b.isPara = true → b.text ≠ []) ∧
    (∃ ts : List (List Char),
      toVerbalHTML src = String.intercalate "\n"
        (ts.map (fun t => String.mk ("<p>".data ++ t ++ "</p>".data))) ∧
      ∀ t ∈ ts, t ≠ []) := by
  constructor
  · obtain ⟨bs, hb, hg⟩ := toSectionedHTML_blocks src
    exact ⟨bs, hb, fun b hb' => (hg b hb').2⟩
  · obtain ⟨ts, ht, hg⟩ := toVerbalHTML_blocks src
    exact ⟨ts, ht, fun t ht' => (hg t ht').2⟩

/-- Claim C8: the text normalizer is idempotent. -/
theorem claim8_normalize_idempotent (x : String) :
    normalizeText (normalizeText x) = normalizeText x := by
  show (⟨normalizeL (normalizeL x.data)⟩ : String) = ⟨normalizeL x.data⟩
  exact congrArg String.mk (normalizeL_idem x.data)

/-- Claim C3, code bug: pickRfds throws a TypeError on a payload whose
verbal or written alias holds a truthy non-string value, because the
blank test calls trim on it; the specification promises graceful
coercion instead. -/
theorem claim3_nonstring_throws :
    pickRfds (JsonVal.obj [("verbalRfd", JsonVal.num 5)]) = .error () ∧
    pickRfds (JsonVal.obj [("writtenRfd", JsonVal.bool true)]) = .error () := by
  constructor <;> decide

/-- Claim C6: the concrete combined-blob payload of the specification
splits into the expected verbal and written texts, and the written
formatter renders the written text as a heading element whose text
begins with Aff Constructive. -/
theorem claim6_concrete_payload :
    pickRfds (JsonVal.obj
        [("rfd", JsonVal.str "Some summary text. Written RFD: Aff Constructive: detail.")]) =
      .ok ("Some summary text.", "Aff Constructive: detail.") ∧
    toSectionedHTML "Aff Constructive: detail." =
      "<h3 class=\"text-lg font-semibold mb-2\">Aff Constructive: detail.</h3>" ∧
    ("Aff Constructive: detail." : String) = "Aff Constructive" ++ ": detail." := by
  refine ⟨by decide, by decide, by decide⟩

/-- Claim C2, counterexample: with a non-empty explicit written value and
an empty verbal value, the combined blob is still consulted: the rfd blob
supplies the verbal output, so extraction differs from the pipeline
without the combined stage, refuting the claim that a non-empty explicit
value prevents consultation. -/
theorem claim2_counterexample :
    truthy (written0 (JsonVal.obj [("writtenRfd", JsonVal.str "Neg wins."),
      ("rfd", JsonVal.str "Verbal RFD: hello")])) = true ∧
    pickRfds (JsonVal.obj [("writtenRfd", JsonVal.str "Neg wins."),
      ("rfd", JsonVal.str "Verbal RFD: hello")]) = .ok ("hello", "Neg wins.") ∧
    pickRfds (JsonVal.obj [("writtenRfd", JsonVal.str "Neg wins."),
      ("rfd", JsonVal.str "Verbal RFD: hello")]) ≠
      pickRfdsNoCombined (JsonVal.obj [("writtenRfd", JsonVal.str "Neg wins."),
        ("rfd", JsonVal.str "Verbal RFD: hello")]) := by
  refine ⟨by decide, by decide, by decide⟩

/-- Claim C2, amended: the combined-blob fallback is gated only by the
verbal value: with a non-blank explicit verbal value the pipeline equals
the pipeline without the combined stage, and with a blank verbal value
and a non-empty candidate the split of the combined blob is consulted,
regardless of the written value. -/
theorem claim2_amended (json : JsonVal) :
    (emptyOrBlank (verbal0 json) = .ok false → pickRfds json = pickRfdsNoCombined json) ∧
    (emptyOrBlank (verbal0 json) = .ok true → combinedOf json ≠ "" →
      afterCombined json = .ok
        (if truthy (verbal0 json) = true then verbal0 json
          else .str ⟨(splitCombinedBlob (combinedOf json).data).1⟩,
         if truthy (written0 json) = true then written0 json
          else .str ⟨(splitCombinedBlob (combinedOf json).data).2⟩)) := by
  constructor
  · intro h
    rw [pickRfds, pickRfdsNoCombined, afterCombined_of_not_blank json h]
    rfl
  · intro h hc
    rw [afterCombined, h]
    simp only [bind, Except.bind]
    rw [if_pos (by simp [hc])]
    rfl

/-- Witness for the amended claim C2 at a concrete payload. -/
theorem claim2_amended_witness :
    emptyOrBlank (verbal0 (JsonVal.obj [("verbalRfd", JsonVal.str "hi"),
      ("rfd", JsonVal.str "ignored blob")])) = .ok false ∧
    pickRfds (JsonVal.obj [("verbalRfd", JsonVal.str "hi"),
      ("rfd", JsonVal.str "ignored blob")]) =
      pickRfdsNoCombined (JsonVal.obj [("verbalRfd", JsonVal.str "hi"),
        ("rfd", JsonVal.str "ignored blob")]) :=
  ⟨by decide, (claim2_amended _).1 (by decide)⟩

/-- Claim C5, counterexample: on a non-empty all-whitespace input neither
formatter returns the sentinel; both return the empty string. -/
theorem claim5_counterexample :
    (" " : String) ≠ "" ∧ (" " : String).data.all isJsWS = true ∧
    toSectionedHTML " " ≠ "<p>Not provided.</p>" ∧
    toVerbalHTML " " ≠ "<p>Not provided.</p>" := by
  refine ⟨by decide, by decide, by decide, by decide⟩

/-- Claim C5, amended: only the empty string yields the sentinel
paragraph; a non-empty all-whitespace input yields the empty output in
both formatters. -/
theorem claim5_amended (s : String) :
    (s = "" → toSectionedHTML s = "<p>Not provided.</p>" ∧
      toVerbalHTML s = "<p>Not provided.</p>") ∧
    (s ≠ "" → (∀ c ∈ s.data, isJsWS c = true) →
      toSectionedHTML s = "" ∧ toVerbalHTML s = "") := by
  constructor
  · rintro rfl
    exact ⟨by decide, by decide⟩
  · intro hne hws
    exact ⟨toSectionedHTML_all_ws s hne hws, toVerbalHTML_all_ws s hne hws⟩

/-- Witness for the amended claim C5 at the empty string and one space. -/
theorem claim5_amended_witness :
    toSectionedHTML "" = "<p>Not provided.</p>" ∧ toVerbalHTML "" = "<p>Not provided.</p>" ∧
    toSectionedHTML " " = "" ∧ toVerbalHTML " " = "" :=
  ⟨((claim5_amended "").1 rfl).1, ((claim5_amended "").1 rfl).2,
    ((claim5_amended " ").2 (by decide) (by decide)).1,
    ((claim5_amended " ").2 (by decide) (by decide)).2⟩

/-- Claim C7, counterexample: a flowNotes string does not become the
written section verbatim: the returned written value is its normalized
form, here with the Markdown bold marker removed. -/
theorem claim7_counterexample :
    getField (theJ (JsonVal.obj [("flowNotes", JsonVal.str "a**b")])) "flowNotes" =
      .str "a**b" ∧
    pickRfds (JsonVal.obj [("flowNotes", JsonVal.str "a**b")]) = .ok ("", "ab") ∧
    ("ab" : String) ≠ "a**b" := by
  refine ⟨rfl, by decide, by decide⟩

/-- Claim C7, amended: when the written value is empty or blank after the
alias lookups and the combined-blob fallback and flowNotes is a plain
string, that string becomes the written value, and the returned written
section is its normalized form. -/
theorem claim7_amended (json : JsonVal) (v w : JsonVal) (f : String)
    (hac : afterCombined json = .ok (v, w))
    (hblank : emptyOrBlank w = .ok true)
    (hflow : getField (theJ json) "flowNotes" = .str f) :
    pickRfds json =
      .ok (normalizeText (jsString (jsOr v (.str ""))), normalizeText f) := by
  rw [pickRfds, hac]
  simp only [bind, Except.bind]
  have h2 : emptyOrBlank (v, w).2 = Except.ok true := hblank
  rw [h2]
  simp only [hflow]
  rw [if_pos (show (true && true) = true from rfl), jsString_jsOr_str]
  rfl

/-- Witness for the amended claim C7 at a concrete payload. -/
theorem claim7_amended_witness :
    pickRfds (JsonVal.obj [("flowNotes", JsonVal.str "notes here")]) =
      .ok (normalizeText (jsString (jsOr (JsonVal.str "") (.str ""))),
        normalizeText "notes here") ∧
    normalizeText "notes here" = "notes here" :=
  ⟨claim7_amended (JsonVal.obj [("flowNotes", JsonVal.str "notes here")])
      (JsonVal.str "") (JsonVal.str "") "notes here" rfl (by decide) rfl,
    by decide⟩

/-- Claim C9, counterexample: a no-break space is JavaScript whitespace
yet survives immediately before a newline in a pickRfds output, because
the normalizer only strips spaces and tabs there; so the output can hold
horizontal whitespace immediately before a newline. -/
theorem claim9_counterexample :
    pickRfds (JsonVal.obj [("verbalRfd", JsonVal.str "a \nb")]) =
      .ok ("a \nb", "") ∧
    ("a \nb" : String).data = ['a', ' ', '\n', 'b'] ∧
    isJsWS ' ' = true := by
  refine ⟨by decide, by decide, by decide⟩

/-- Claim C9, amended: both strings of a successful pickRfds result are
fixed points of the normalizer: no carriage return, no double asterisk,
no space or tab immediately before a newline, no run of three or more
newlines, and no leading or trailing whitespace. -/
theorem claim9_amended (json : JsonVal) (v w : String)
    (h : pickRfds json = .ok (v, w)) :
    (normalizeText v = v ∧ '\r' ∉ v.data ∧ hasBold v.data = false ∧
      hasWSNL v.data = false ∧ hasNNN v.data = false ∧ trimL v.data = v.data) ∧
    (normalizeText w = w ∧ '\r' ∉ w.data ∧ hasBold w.data = false ∧
      hasWSNL w.data = false ∧ hasNNN w.data = false ∧ trimL w.data = w.data) := by
  obtain ⟨x, y, rfl, rfl⟩ := pickRfds_ok_shape json v w h
  exact ⟨normalizeText_props x, normalizeText_props y⟩

/-- Witness for the amended claim C9 at a concrete payload. -/
theorem claim9_amended_witness :
    normalizeText "hi" = "hi" ∧ '\r' ∉ ("hi" : String).data ∧
    hasBold ("hi" : String).data = false ∧ hasWSNL ("hi" : String).data = false ∧
    hasNNN ("hi" : String).data = false ∧ trimL ("hi" : String).data = ("hi" : String).data :=
  (claim9_amended (JsonVal.obj [("verbalRfd", JsonVal.str "hi")]) "hi" "" (by decide)).1
